import Mathlib

/-!
Verification development for the ERX entity-resolution engine.

The definitions below are a shallow embedding of the Python sources:

* `ERX.Fast` embeds `src/run_entity_resolution_fast.py`
  (class `FastEntityResolver`), the end-to-end fast pipeline.
* `ERX.Core` embeds `src/core/entity_resolution.py` (class `EntityResolver`):
  the similarity kernel, classification heuristics, confidence and the main
  `resolve_entities` clustering loop.

Strings are Lean `String`s, Python floats are modelled as rationals (`ℚ`),
and values loaded from CSV cells are modelled by `PyVal` (a string, or a
null-like value such as `NaN`/`None`).  The external `fuzzywuzzy` library and
the missing configuration file are modelled from the specification where
indicated by doc comments.
-/

namespace ERX

/-- A Python value in a record field: either an actual string, or a
null-like value (`None` or pandas `NaN`). -/
inductive PyVal where
  | na : PyVal
  | s (v : String) : PyVal
  deriving DecidableEq

/-- Python truthiness of a field value: `NaN` (a float) is truthy, the empty
string is falsy; combined with `pd.notna` the guards in the sources accept
exactly a non-empty actual string. -/
def PyVal.truthyStr : PyVal → Bool
  | .na => false
  | .s v => v ≠ ""

/-- Python `\w` character class (ASCII part): alphanumerics and underscore. -/
def isWordChar (c : Char) : Bool := c.isAlphanum || c = '_'

/-- `re.sub(r'[^\w\s]', ' ', s)`: replace non-word, non-space characters by
a space. -/
def subNonWord (l : List Char) : List Char :=
  l.map (fun c => if isWordChar c || c.isWhitespace then c else ' ')

/-- Split a character list into maximal whitespace-free runs
(Python `str.split()`). -/
def splitWS : List Char → List (List Char)
  | [] => []
  | c :: cs =>
    if c.isWhitespace then splitWS cs
    else
      match splitWS cs with
      | [] => [[c]]
      | w :: ws =>
        match cs with
        | [] => [[c]]
        | d :: _ => if d.isWhitespace then [c] :: w :: ws else (c :: w) :: ws

/-- Lower-case a string (ASCII folding, `str.lower`). -/
def lowerStr (s : String) : String := String.mk (s.data.map Char.toLower)

/-- `re.sub(r'\s+', ' ', s).strip()`: collapse whitespace runs and trim,
realized by re-joining the whitespace-separated tokens. -/
def collapseWS (s : String) : String :=
  String.intercalate " " ((splitWS s.data).map String.mk)

/-- Name normalization of the sources: strip punctuation to spaces, collapse
whitespace, trim, lower-case. -/
def normName (s : String) : String :=
  lowerStr (collapseWS (String.mk (subNonWord s.data)))

/-- `re.sub(r'\D', '', s)`: keep only the digits. -/
def digitsOnly (s : String) : String := String.mk (s.data.filter Char.isDigit)

/-- Address normalization of the sources: collapse whitespace, trim,
lower-case. -/
def normAddr (s : String) : String := lowerStr (collapseWS s)

/-- First-occurrence deduplication relative to already-seen keys. -/
def firstOccurAux (seen : List String) : List String → List String
  | [] => []
  | k :: ks =>
    if k ∈ seen then firstOccurAux seen ks
    else k :: firstOccurAux (k :: seen) ks

/-- First-occurrence deduplication, the key order of an insertion-ordered
Python dict built by appending. -/
def firstOccur (l : List String) : List String := firstOccurAux [] l

/-- `np.mean` of a rational list (0 on the empty list, which the sources
never hit). -/
def meanQ (l : List ℚ) : ℚ := l.sum / l.length

/-- Python `max(strs, key=len)`: the first string of maximal length
(and `""` on the empty list, which the sources guard against). -/
def maxByLen : List String → String
  | [] => ""
  | h :: t => t.foldl (fun a x => if a.length < x.length then x else a) h

/-- `Counter(l).most_common(1)[0][0]`: the most frequent element, ties
broken by first occurrence. -/
def mostCommon (l : List String) : String :=
  match firstOccur l with
  | [] => ""
  | k :: ks =>
    ks.foldl (fun best k' => if l.count best < l.count k' then k' else best) k

/-- Zero-padded 6-digit counter (`f"...{n:06d}"`). -/
def pad6 (n : Nat) : String :=
  let s := toString n
  String.mk (List.replicate (6 - s.length) '0') ++ s

/-- Python word split `s.split()` as strings. -/
def wordsOf (s : String) : List String := (splitWS s.data).map String.mk

/-- Insert into a `≤`-sorted list of strings. -/
def insertSorted (s : String) : List String → List String
  | [] => [s]
  | t :: ts => if s ≤ t then s :: t :: ts else t :: insertSorted s ts

/-- `sorted(l)` for strings (insertion sort). -/
def sortStrs (l : List String) : List String := l.foldr insertSorted []

/-- `isPrefOf n h`: is `n` a prefix of `h`? (For Python's `x in s`
substring test.) -/
def isPrefOf : List Char → List Char → Bool
  | [], _ => true
  | _ :: _, [] => false
  | a :: as, b :: bs => a = b && isPrefOf as bs

/-- Python's substring containment `n in h`. -/
def isSubOf (n : List Char) : List Char → Bool
  | [] => n.isEmpty
  | b :: bs => isPrefOf n (b :: bs) || isSubOf n bs

/-- Longest-common-subsequence length, fuelled so that it is structurally
recursive (the fuel `l₁.length + l₂.length` always suffices). -/
def lcsAux : Nat → List Char → List Char → Nat
  | 0, _, _ => 0
  | _ + 1, [], _ => 0
  | _ + 1, _ :: _, [] => 0
  | fuel + 1, a :: as, b :: bs =>
    if a = b then lcsAux fuel as bs + 1
    else max (lcsAux fuel (a :: as) bs) (lcsAux fuel as (b :: bs))

/-- Length of a longest common subsequence of two character lists. -/
def lcsLen (l₁ l₂ : List Char) : Nat := lcsAux (l₁.length + l₂.length) l₁ l₂

theorem lcsAux_le_left :
    ∀ (fuel : Nat) (l₁ l₂ : List Char), lcsAux fuel l₁ l₂ ≤ l₁.length := by
  intro fuel
  induction fuel with
  | zero => intro l₁ l₂; simp [lcsAux]
  | succ n ih =>
    intro l₁ l₂
    match l₁, l₂ with
    | [], _ => simp [lcsAux]
    | _ :: _, [] => simp [lcsAux]
    | a :: as, b :: bs =>
      rw [lcsAux]
      split
      · exact Nat.succ_le_succ (ih as bs)
      · exact max_le (ih (a :: as) bs) (Nat.le_succ_of_le (ih as (b :: bs)))

theorem lcsAux_le_right :
    ∀ (fuel : Nat) (l₁ l₂ : List Char), lcsAux fuel l₁ l₂ ≤ l₂.length := by
  intro fuel
  induction fuel with
  | zero => intro l₁ l₂; simp [lcsAux]
  | succ n ih =>
    intro l₁ l₂
    match l₁, l₂ with
    | [], _ => simp [lcsAux]
    | _ :: _, [] => simp [lcsAux]
    | a :: as, b :: bs =>
      rw [lcsAux]
      split
      · exact Nat.succ_le_succ (ih as bs)
      · exact max_le (Nat.le_succ_of_le (ih (a :: as) bs)) (ih as (b :: bs))

theorem lcsLen_le_left (l₁ l₂ : List Char) : lcsLen l₁ l₂ ≤ l₁.length :=
  lcsAux_le_left _ l₁ l₂

theorem lcsLen_le_right (l₁ l₂ : List Char) : lcsLen l₁ l₂ ≤ l₂.length :=
  lcsAux_le_right _ l₁ l₂

/-- Modelled from the spec: the `fuzz.ratio` character similarity of the
external `fuzzywuzzy` library (library code not under `src/`): `100·(1 −
normalized edit distance)`, realized in the indel form
`100 · 2·LCS(a,b) / (|a| + |b|)`, in `[0, 100]`. -/
def fuzzRatio (a b : String) : ℚ :=
  if a.length + b.length = 0 then 100
  else (200 * (lcsLen a.data b.data : ℚ)) / ((a.length : ℚ) + (b.length : ℚ))

theorem fuzzRatio_nonneg (a b : String) : 0 ≤ fuzzRatio a b := by
  unfold fuzzRatio
  split
  · norm_num
  · next h =>
    apply div_nonneg
    · positivity
    · have : 0 < a.length + b.length := Nat.pos_of_ne_zero h
      exact_mod_cast Nat.le_of_lt this

theorem fuzzRatio_le_100 (a b : String) : fuzzRatio a b ≤ 100 := by
  unfold fuzzRatio
  split
  · norm_num
  · next h =>
    have hpos : (0 : ℚ) < (a.length : ℚ) + (b.length : ℚ) := by
      have : 0 < a.length + b.length := Nat.pos_of_ne_zero h
      exact_mod_cast this
    rw [div_le_iff₀ hpos]
    have h1 : lcsLen a.data b.data ≤ a.length := lcsLen_le_left a.data b.data
    have h2 : lcsLen a.data b.data ≤ b.length := lcsLen_le_right a.data b.data
    have hq : (lcsLen a.data b.data : ℚ) + (lcsLen a.data b.data : ℚ)
        ≤ (a.length : ℚ) + (b.length : ℚ) := by
      have h1q : (lcsLen a.data b.data : ℚ) ≤ (a.length : ℚ) := by exact_mod_cast h1
      have h2q : (lcsLen a.data b.data : ℚ) ≤ (b.length : ℚ) := by exact_mod_cast h2
      linarith
    linarith

/-! ## The fast resolver (`src/run_entity_resolution_fast.py`) -/

namespace Fast

/-- An input party record, one CSV row (`party_df.to_dict('records')`).
The columns accessed by `FastEntityResolver`. -/
structure Party where
  party_id : String
  name : PyVal
  email : PyVal
  phone : PyVal
  address : PyVal
  country : PyVal
  accounts_list : String
  source_system : String
  source_index_list : String
  deriving DecidableEq

/-- A preprocessed party: the original record together with the normalized
fields added by `preprocess_party`.  `idx` is the position in the input list
and stands for the Python object identity `id(party)` used by the source. -/
structure NParty where
  idx : Nat
  raw : Party
  name_n : String
  email_n : String
  phone_n : String
  deriving DecidableEq

/-- `FastEntityResolver.preprocess_party`: the guard
`field in processed and processed[field] and pd.notna(processed[field])`
accepts exactly a non-empty actual string; everything else normalizes to
the empty string. -/
def preprocess_party (i : Nat) (p : Party) : NParty :=
  { idx := i
    raw := p
    name_n := match p.name with
      | .s v => if v = "" then "" else normName v
      | .na => ""
    email_n := match p.email with
      | .s v => if v = "" then "" else lowerStr v
      | .na => ""
    phone_n := match p.phone with
      | .s v => if v = "" then "" else digitsOnly v
      | .na => "" }

/-- Preprocess the whole input, numbering records by input position. -/
def preprocessAll : Nat → List Party → List NParty
  | _, [] => []
  | i, p :: ps => preprocess_party i p :: preprocessAll (i + 1) ps

/-- Build the insertion-ordered buckets of a Python
`defaultdict(list)` grouping: keys in first-occurrence order, members in
input order. -/
def gatherBy (key : NParty → String) (ps : List NParty) :
    List (String × List NParty) :=
  (firstOccur (ps.map key)).map (fun k => (k, ps.filter (fun p => key p = k)))

/-- The email buckets of `find_exact_matches`: parties with a non-empty
normalized email, grouped by it. -/
def emailBuckets (ps : List NParty) : List (String × List NParty) :=
  gatherBy (·.email_n) (ps.filter (fun p => p.email_n ≠ ""))

/-- The email pass of `find_exact_matches`: a bucket becomes an exact group
when it has at least two members and its first member is not yet used; its
members are then marked used. -/
def emailFold : List (String × List NParty) → List Nat →
    List (List NParty) × List Nat
  | [], u => ([], u)
  | (_, []) :: bs, u => emailFold bs u
  | (_, p :: rest) :: bs, u =>
    if rest.length ≠ 0 ∧ p.idx ∉ u then
      let r := emailFold bs (u ++ (p :: rest).map (·.idx))
      ((p :: rest) :: r.1, r.2)
    else emailFold bs u

/-- The email stage applied to a preprocessed input, starting from an empty
used set. -/
def emailStage (ps : List NParty) : List (List NParty) × List Nat :=
  emailFold (emailBuckets ps) []

/-- The phone buckets of `find_exact_matches`: parties with a non-empty
normalized phone that were not used by the email pass, grouped by phone. -/
def phoneBuckets (ps : List NParty) (used : List Nat) :
    List (String × List NParty) :=
  gatherBy (·.phone_n) (ps.filter (fun p => p.phone_n ≠ "" ∧ p.idx ∉ used))

/-- The phone pass of `find_exact_matches`: every bucket of size at least two
becomes an exact group (no first-member check in the source here). -/
def phoneFold : List (String × List NParty) → List Nat →
    List (List NParty) × List Nat
  | [], u => ([], u)
  | (_, g) :: bs, u =>
    if 1 < g.length then
      let r := phoneFold bs (u ++ g.map (·.idx))
      (g :: r.1, r.2)
    else phoneFold bs u

/-- `FastEntityResolver.find_exact_matches`: email groups first, then phone
groups over the records the email pass left unused. -/
def find_exact_matches (ps : List NParty) :
    List (List NParty) × List Nat :=
  let e := emailStage ps
  let r := phoneFold (phoneBuckets ps e.2) e.2
  (e.1 ++ r.1, r.2)

/-- The email domain `email.split('@')[1]`: the segment between the first
`@` and the following `@` (or the end). -/
def emailDomain (s : String) : String :=
  String.mk ((((s.data.dropWhile (fun c => c ≠ '@')).drop 1).takeWhile
    (fun c => c ≠ '@')))

/-- The blocking keys `create_smart_blocks` emits for one party, in source
order: 5-char name prefix, 4-char first-word prefix, 6-char email-domain
prefix, 6-digit phone prefix. -/
def partyKeys (p : NParty) : List String :=
  (if p.name_n ≠ "" then
    (if 5 ≤ p.name_n.length then
      ["name_" ++ String.mk (p.name_n.data.take 5)] else []) ++
    (let fw : String := match splitWS p.name_n.data with
      | [] => ""
      | w :: _ => String.mk w
     if 4 ≤ fw.length then ["word_" ++ String.mk (fw.data.take 4)] else [])
   else []) ++
  (if p.email_n ≠ "" ∧ '@' ∈ p.email_n.data then
    (let dom := emailDomain p.email_n
     if 3 ≤ dom.length then ["email_" ++ String.mk (dom.data.take 6)] else [])
   else []) ++
  (if 6 ≤ p.phone_n.length then
    ["phone_" ++ String.mk (p.phone_n.data.take 6)] else [])

/-- All blocks built by `create_smart_blocks` before size filtering:
insertion-ordered buckets of the multi-key blocking. -/
def rawBlocks (rem : List NParty) : List (String × List NParty) :=
  (firstOccur (rem.flatMap partyKeys)).map
    (fun k => (k, rem.filter (fun p => k ∈ partyKeys p)))

/-- `create_smart_blocks`: drop every block with more than 1000 members. -/
def create_smart_blocks (rem : List NParty) : List (String × List NParty) :=
  (rawBlocks rem).filter (fun kb => kb.2.length ≤ 1000)

/-- The email/phone exact-equality boosts at the tail of
`calculate_similarity_fast` (each returns immediately when it fires). -/
def exactBoost (score : ℚ) (p q : NParty) : ℚ :=
  if p.email_n ≠ "" ∧ q.email_n ≠ "" ∧ p.email_n = q.email_n then
    score + 3/10
  else if p.phone_n ≠ "" ∧ q.phone_n ≠ "" ∧ p.phone_n = q.phone_n then
    score + 1/5
  else score

/-- `FastEntityResolver.calculate_similarity_fast` with its early
termination when the name ratio is below 0.3. -/
def calculate_similarity_fast (p q : NParty) : ℚ :=
  if p.name_n ≠ "" ∧ q.name_n ≠ "" then
    let ns := fuzzRatio p.name_n q.name_n / 100
    if ns < 3/10 then ns * (2/5)
    else exactBoost (ns * (2/5)) p q
  else exactBoost 0 p q

/-- The same combiner with the `name_sim < 0.3` early return removed
(the hypothetical full computation the spec's early-termination note is
about). -/
def similarity_fast_noEarly (p q : NParty) : ℚ :=
  if p.name_n ≠ "" ∧ q.name_n ≠ "" then
    exactBoost ((fuzzRatio p.name_n q.name_n / 100) * (2/5)) p q
  else exactBoost 0 p q

/-- Inner loop of `_find_entity_groups_blocked`: absorb into `p`'s group
every later unused party of the block with similarity at least 0.7. -/
def absorb (p : NParty) : List NParty → List Nat → List NParty × List Nat
  | [], u => ([], u)
  | q :: qs, u =>
    if q.idx ∈ u then absorb p qs u
    else if 7/10 ≤ calculate_similarity_fast p q then
      let r := absorb p qs (u ++ [q.idx])
      (q :: r.1, r.2)
    else absorb p qs u

/-- Outer loop of `_find_entity_groups_blocked` over one block. -/
def groupPass : List NParty → List Nat → List (List NParty) × List Nat
  | [], u => ([], u)
  | p :: rest, u =>
    if p.idx ∈ u then groupPass rest u
    else
      let r := absorb p rest (u ++ [p.idx])
      let r2 := groupPass rest r.2
      ((p :: r.1) :: r2.1, r2.2)

/-- `_find_entity_groups_blocked`: process blocks in order, skipping blocks
of size at most one, sharing the used set across blocks. -/
def groupBlocks : List (String × List NParty) → List Nat →
    List (List NParty) × List Nat
  | [], u => ([], u)
  | (_, g) :: bs, u =>
    if g.length ≤ 1 then groupBlocks bs u
    else
      let r := groupPass g u
      let r2 := groupBlocks bs r.2
      (r.1 ++ r2.1, r2.2)

def find_entity_groups_blocked (blocks : List (String × List NParty)) :
    List (List NParty) :=
  (groupBlocks blocks []).1

/-- The preprocessed input of `resolve_entities_fast` (stage 1). -/
def processedOf (ps : List Party) : List NParty := preprocessAll 0 ps

def exactGroupsOf (ps : List Party) : List (List NParty) :=
  (find_exact_matches (processedOf ps)).1

def exactUsedOf (ps : List Party) : List Nat :=
  (find_exact_matches (processedOf ps)).2

/-- The used set after only the email pass (needed to state which records
the phone pass can still see). -/
def emailUsedOf (ps : List Party) : List Nat := (emailStage (processedOf ps)).2

/-- Stage 2 residue: parties not used by exact matching. -/
def remainingOf (ps : List Party) : List NParty :=
  (processedOf ps).filter (fun p => p.idx ∉ exactUsedOf ps)

def smartBlocksOf (ps : List Party) : List (String × List NParty) :=
  create_smart_blocks (remainingOf ps)

def fuzzyGroupsOf (ps : List Party) : List (List NParty) :=
  find_entity_groups_blocked (smartBlocksOf ps)

def allGroupsPre (ps : List Party) : List (List NParty) :=
  exactGroupsOf ps ++ fuzzyGroupsOf ps

/-- `all_used` of stage 4: the identities of every grouped party. -/
def allUsedOf (ps : List Party) : List Nat :=
  ((allGroupsPre ps).flatten).map (·.idx)

/-- `single_parties` of stage 4. -/
def singlesOf (ps : List Party) : List NParty :=
  (processedOf ps).filter (fun p => p.idx ∉ allUsedOf ps)

/-- The final cluster list of `resolve_entities_fast`: exact groups, fuzzy
groups, then singletons. -/
def resolveGroupsFast (ps : List Party) : List (List NParty) :=
  allGroupsPre ps ++ (singlesOf ps).map (fun p => [p])

/-- An output entity of the fast resolver (`_create_entity`).  The
`json.dumps` serializations are modelled by the lists themselves. -/
structure Entity where
  entity_id : String
  party_ids : List String
  confidence_score : ℚ
  resolved_name : String
  resolved_address : String
  resolved_phone : String
  resolved_email : String
  resolved_country : String
  source_systems : List String
  records : List Party
  deriving DecidableEq

/-- The pairwise similarities of `_calculate_confidence`, in source loop
order (`for i .. for j in i+1..`). -/
def pairSims : List NParty → List ℚ
  | [] => []
  | p :: rest => rest.map (calculate_similarity_fast p) ++ pairSims rest

/-- `FastEntityResolver._calculate_confidence`. -/
def calculate_confidence (g : List NParty) : ℚ :=
  if g.length = 1 then 7/10
  else
    let sims := pairSims g
    if sims ≠ [] then
      min (meanQ sims + min ((g.length : ℚ) * (1/20)) (1/5)) 1
    else 4/5

/-- The list comprehension `[str(party[f]) for party in group if party[f]
and pd.notna(party[f])]` for a raw field. -/
def presentVals (f : Party → PyVal) (g : List NParty) : List String :=
  g.filterMap (fun m => match f m.raw with
    | .s v => if v = "" then none else some v
    | .na => none)

def getResolvedName (g : List NParty) : String := maxByLen (presentVals (·.name) g)

def getResolvedEmail (g : List NParty) : String :=
  match presentVals (·.email) g with
  | [] => ""
  | e :: _ => e

def getResolvedPhone (g : List NParty) : String :=
  match presentVals (·.phone) g with
  | [] => ""
  | e :: _ => e

def getResolvedAddress (g : List NParty) : String :=
  maxByLen (presentVals (·.address) g)

def getResolvedCountry (g : List NParty) : String :=
  let cs := presentVals (·.country) g
  if cs.isEmpty then "" else mostCommon cs

/-- `list(set(...))` of the member source systems.  CPython set iteration
order is modelled as first-occurrence order here; no fast-pipeline claim
depends on this order (the run-to-run instability it causes is treated in
the core resolver's determinism analysis). -/
def sourceSystemsOf (g : List NParty) : List String :=
  firstOccur (g.map (·.raw.source_system))

/-- `FastEntityResolver._create_entity` for the group emitted with counter
value `counter` (the source increments the counter after each entity). -/
def mkEntity (counter : Nat) (g : List NParty) : Entity :=
  { entity_id := "E" ++ pad6 (counter + 1)
    party_ids := g.map (·.raw.party_id)
    confidence_score := calculate_confidence g
    resolved_name := getResolvedName g
    resolved_address := getResolvedAddress g
    resolved_phone := getResolvedPhone g
    resolved_email := getResolvedEmail g
    resolved_country := getResolvedCountry g
    source_systems := sourceSystemsOf g
    records := g.map (·.raw) }

def mkEntities : Nat → List (List NParty) → List Entity
  | _, [] => []
  | n, g :: gs => mkEntity n g :: mkEntities (n + 1) gs

/-- `FastEntityResolver.resolve_entities_fast`: the emitted entity list. -/
def resolveEntitiesFast (ps : List Party) : List Entity :=
  mkEntities 0 (resolveGroupsFast ps)

/-- The `name_sim` value of `calculate_similarity_fast` (0 when the name
branch is not taken because a side is empty, matching the kernel's
empty-side rule). -/
def nameSimFast (p q : NParty) : ℚ :=
  if p.name_n ≠ "" ∧ q.name_n ≠ "" then fuzzRatio p.name_n q.name_n / 100
  else 0

/-- The confidence formula exactly as claim C5 words it: 0.7 for a
one-member cluster, otherwise the mean pairwise record-level similarity
over all unordered member pairs plus `min(0.05·|cluster|, 0.2)`, clamped
to 1.0. -/
def specConfidence (g : List NParty) : ℚ :=
  if g.length = 1 then 7/10
  else min (meanQ (pairSims g) + min ((g.length : ℚ) * (1/20)) (1/5)) 1

/-- Concrete input for the exact-match absorption analysis: records 1 and 2
share the normalized phone `"2"`, but record 1 is absorbed by the email
group with record 0 first. -/
def demoAbsorb : List Party :=
  [ { party_id := "a", name := .na, email := .s "e@x", phone := .s "1"
      address := .na, country := .na, accounts_list := ""
      source_system := "S1", source_index_list := "" },
    { party_id := "b", name := .na, email := .s "e@x", phone := .s "2"
      address := .na, country := .na, accounts_list := ""
      source_system := "S1", source_index_list := "" },
    { party_id := "c", name := .na, email := .na, phone := .s "2"
      address := .na, country := .na, accounts_list := ""
      source_system := "S1", source_index_list := "" } ]

/-- A record with every field empty/null-like. -/
def emptyParty : Party :=
  { party_id := "solo", name := .na, email := .na, phone := .na
    address := .na, country := .na, accounts_list := ""
    source_system := "S1", source_index_list := "" }

instance : Inhabited Party := ⟨emptyParty⟩

instance : Inhabited NParty := ⟨preprocess_party 0 emptyParty⟩

/-- Buckets are pairwise disjoint on record identity. -/
abbrev BucketsDisj (bs : List (String × List NParty)) : Prop :=
  List.Pairwise (fun b b' => ∀ p ∈ b.2, ∀ q ∈ b'.2, p.idx ≠ q.idx) bs

/-- All members of all buckets are fresh with respect to a used set. -/
abbrev BucketsFresh (bs : List (String × List NParty)) (u : List Nat) : Prop :=
  ∀ b ∈ bs, ∀ p ∈ b.2, p.idx ∉ u

/-- Two records with distinct non-empty emails: both survive the
exact-match stage. -/
def demoSurvivors : List Party :=
  [ { party_id := "u", name := .na, email := .s "a@x", phone := .na
      address := .na, country := .na, accounts_list := ""
      source_system := "S1", source_index_list := "" },
    { party_id := "v", name := .na, email := .s "b@y", phone := .na
      address := .na, country := .na, accounts_list := ""
      source_system := "S1", source_index_list := "" } ]

end Fast

/-! ## The core resolver (`src/core/entity_resolution.py`) -/

namespace Core

/-- An input record of `EntityResolver` (a Python dict): each field key may
be absent, and a present value may be an actual string or null-like. -/
structure CoreRecord where
  name : Option PyVal
  email : Option PyVal
  phone : Option PyVal
  address : Option PyVal
  source_system : Option String
  deriving DecidableEq

/-- A record after `preprocess_record`: the raw fields (known to be actual
strings, since null-like present values make preprocessing raise) plus the
normalized fields, each present exactly when the raw key was present. -/
structure ProcRec where
  name : Option String
  email : Option String
  phone : Option String
  address : Option String
  source_system : Option String
  name_n : Option String
  email_n : Option String
  phone_n : Option String
  address_n : Option String
  deriving DecidableEq

instance : Inhabited ProcRec :=
  ⟨{ name := none, email := none, phone := none, address := none
     source_system := none, name_n := none, email_n := none
     phone_n := none, address_n := none }⟩

/-- `EntityResolver.preprocess_record` with the preprocessing flags of the
configuration all true (the configuration file is not under `src/`; the
spec gives `lowercase`, `normalize_names`, `standardize_phone`,
`extract_address_components` all defaulting to true).  A present null-like
value raises (`re.sub`/`str.lower` on a float), an absent key leaves the
corresponding normalized key absent. -/
def preprocess_record (r : CoreRecord) : Except String ProcRec := do
  let nm : Option String × Option String ← match r.name with
    | none => pure (none, none)
    | some .na => throw "TypeError: name"
    | some (.s v) => pure (some v, some (normName v))
  let em : Option String × Option String ← match r.email with
    | none => pure (none, none)
    | some .na => throw "AttributeError: email"
    | some (.s v) => pure (some v, some (lowerStr v))
  let ph : Option String × Option String ← match r.phone with
    | none => pure (none, none)
    | some .na => throw "TypeError: phone"
    | some (.s v) => pure (some v, some (digitsOnly v))
  let ad : Option String × Option String ← match r.address with
    | none => pure (none, none)
    | some .na => throw "TypeError: address"
    | some (.s v) => pure (some v, some (normAddr v))
  pure { name := nm.1, email := em.1, phone := ph.1, address := ad.1
         source_system := r.source_system
         name_n := nm.2, email_n := em.2, phone_n := ph.2, address_n := ad.2 }

/-- Modelled from the spec: `fuzz.token_sort_ratio` of the external
`fuzzywuzzy` library — the character ratio of the two strings after
sorting their whitespace tokens. -/
def tokenSortRatio (a b : String) : ℚ :=
  fuzzRatio
    (String.intercalate " " (sortStrs (wordsOf a)))
    (String.intercalate " " (sortStrs (wordsOf b)))

/-- The length-`n` windows of a character list. -/
def windowsOf (n : Nat) (l : List Char) : List (List Char) :=
  (List.range (l.length + 1 - n)).map (fun i => (l.drop i).take n)

/-- Modelled from the spec: `fuzz.partial_ratio` of the external
`fuzzywuzzy` library — the best character ratio of the shorter string
against the windows of its length in the longer string. -/
def windowRatio (a b : String) : ℚ :=
  let st := if a.length ≤ b.length then (a, b) else (b, a)
  ((windowsOf st.1.length st.2.data).map
    (fun w => fuzzRatio st.1 (String.mk w))).foldl max 0

/-- Modelled from the spec: `fuzz.token_set_ratio` of the external
`fuzzywuzzy` library — best ratio among the sorted token intersection and
its two one-sided extensions. -/
def tokenSetRatio (a b : String) : ℚ :=
  let ta := wordsOf a
  let tb := wordsOf b
  let inter := sortStrs (firstOccur (ta.filter (fun t => t ∈ tb)))
  let d1 := sortStrs (firstOccur (ta.filter (fun t => t ∉ tb)))
  let d2 := sortStrs (firstOccur (tb.filter (fun t => t ∉ ta)))
  let s0 := String.intercalate " " inter
  let s1 := String.intercalate " " (inter ++ d1)
  let s2 := String.intercalate " " (inter ++ d2)
  max (max (fuzzRatio s0 s1) (fuzzRatio s0 s2)) (fuzzRatio s1 s2)

/-- `EntityResolver._calculate_name_similarity`.  The algorithm mixture is
modelled from the spec (configuration file not under `src/`): token-sort
ratio and partial ratio with equal weights summing to 1, result normalized
to `[0, 1]`.  The empty-side guard is from the source. -/
def calculate_name_similarity (a b : String) : ℚ :=
  if a = "" ∨ b = "" then 0
  else (tokenSortRatio a b * (1/2) + windowRatio a b * (1/2)) / 100

/-- Number of `@` signs (decides if `email.split('@')` has exactly two
parts, the case the source's `try` block handles). -/
def atCount (s : String) : Nat := s.data.count '@'

/-- The part before the first `@`. -/
def localPart (s : String) : String :=
  String.mk (s.data.takeWhile (fun c => c ≠ '@'))

/-- The part after the first `@`. -/
def domPart (s : String) : String :=
  String.mk ((s.data.dropWhile (fun c => c ≠ '@')).drop 1)

/-- `EntityResolver._calculate_email_similarity`. -/
def calculate_email_similarity (a b : String) : ℚ :=
  if a = "" ∨ b = "" then 0
  else if a = b then 1
  else if atCount a = 1 ∧ atCount b = 1 then
    (3/10) * (fuzzRatio (localPart a) (localPart b) / 100) +
      (7/10) * (if domPart a = domPart b then 1 else 0)
  else fuzzRatio a b / 100

/-- The last `n` characters (`s[-n:]`). -/
def lastN (n : Nat) (s : String) : String :=
  String.mk (s.data.drop (s.length - n))

/-- `EntityResolver._calculate_phone_similarity`. -/
def calculate_phone_similarity (a b : String) : ℚ :=
  if a = "" ∨ b = "" then 0
  else if a = b then 1
  else if 10 ≤ a.length ∧ 10 ≤ b.length ∧ lastN 10 a = lastN 10 b then 9/10
  else fuzzRatio a b / 100

/-- `EntityResolver._calculate_address_similarity`; the mixture is modelled
from the spec as for names (token-set ratio and partial ratio, equal
weights). -/
def calculate_address_similarity (a b : String) : ℚ :=
  if a = "" ∨ b = "" then 0
  else if a = b then 1
  else (tokenSetRatio a b * (1/2) + windowRatio a b * (1/2)) / 100

/-- One field's contribution to the `similarities` dict: a singleton
`(weight, value)` entry when both records carry the normalized key,
nothing otherwise. -/
def seg (w : ℚ) (f : String → String → ℚ) (o1 o2 : Option String) :
    List (ℚ × ℚ) :=
  match o1, o2 with
  | some a, some b => [(w, f a b)]
  | _, _ => []

/-- The `similarities` dict of `EntityResolver.calculate_similarity` as a
`(weight, value)` list in insertion order; a field participates exactly
when both records carry its normalized key. -/
def fieldSims (r1 r2 : ProcRec) : List (ℚ × ℚ) :=
  seg ((2 : ℚ)/5) calculate_name_similarity r1.name_n r2.name_n ++
  seg ((3 : ℚ)/10) calculate_email_similarity r1.email_n r2.email_n ++
  seg ((1 : ℚ)/5) calculate_phone_similarity r1.phone_n r2.phone_n ++
  seg ((1 : ℚ)/10) calculate_address_similarity r1.address_n r2.address_n

/-- `EntityResolver.calculate_similarity`: weighted sum over the compared
fields divided by the sum of their (hard-coded 0.4/0.3/0.2/0.1) weights. -/
def calculate_similarity (r1 r2 : ProcRec) : ℚ :=
  let sims := fieldSims r1 r2
  if sims.isEmpty then 0
  else
    let ws := (sims.map (fun wv => wv.2 * wv.1)).sum
    let tw := (sims.map (fun wv => wv.1)).sum
    if 0 < tw then ws / tw else 0

def business_indicators : List String :=
  ["inc", "corp", "ltd", "llc", "company", "corporation", "limited", "co"]

def pep_indicators : List String :=
  ["senator", "congress", "minister", "president", "governor", "mayor"]

/-- The per-record test of the second business heuristic:
`' ' not in name or len(name.split()) == 1`. -/
def codeSingleTokenish (r : ProcRec) : Bool :=
  !((r.name.getD "").data.contains ' ') || (wordsOf (r.name.getD "")).length == 1

/-- `EntityResolver.determine_entity_type`: substring containment of a
business token in the lower-cased name, else the no-space / single-token
majority heuristic (`business_count > len(records) * 0.5`). -/
def determine_entity_type (records : List ProcRec) : String :=
  if records.any (fun r =>
      business_indicators.any (fun ind =>
        isSubOf ind.data (lowerStr (r.name.getD "")).data)) then "biz"
  else
    let business_count := (records.filter codeSingleTokenish).length
    if records.length < 2 * business_count then "biz" else "ind"

/-- `EntityResolver.determine_pep_status`: substring containment of a PEP
token in the lower-cased name of some member. -/
def determine_pep_status (records : List ProcRec) : Bool :=
  records.any (fun r =>
    pep_indicators.any (fun ind =>
      isSubOf ind.data (lowerStr (r.name.getD "")).data))

/-- Pairwise similarities of `_calculate_entity_confidence`, in source
loop order. -/
def pairSimsCore : List ProcRec → List ℚ
  | [] => []
  | r :: rest => rest.map (calculate_similarity r) ++ pairSimsCore rest

/-- `EntityResolver._calculate_entity_confidence`. -/
def calculate_entity_confidence (rs : List ProcRec) : ℚ :=
  if rs.length = 1 then 7/10
  else
    let sims := pairSimsCore rs
    if sims ≠ [] then
      min (meanQ sims + min ((rs.length : ℚ) * (1/20)) (1/5)) 1
    else 4/5

/-- `[record.get(f, '') for record in records if record.get(f)]`. -/
def presentValsCore (f : ProcRec → Option String) (rs : List ProcRec) :
    List String :=
  rs.filterMap (fun r => match f r with
    | some v => if v = "" then none else some v
    | none => none)

def getPrimaryName (rs : List ProcRec) : String :=
  maxByLen (presentValsCore (·.name) rs)

def getPrimaryEmail (rs : List ProcRec) : String :=
  match presentValsCore (·.email) rs with
  | [] => ""
  | e :: _ => e

def getPrimaryPhone (rs : List ProcRec) : String :=
  match presentValsCore (·.phone) rs with
  | [] => ""
  | e :: _ => e

def getPrimaryAddress (rs : List ProcRec) : String :=
  maxByLen (presentValsCore (·.address) rs)

/-- The email arm of the exact-match test in `_find_exact_matches`:
`record1.get('email_normalized')` truthy and equal to
`record2.get('email_normalized')`. -/
def emailKeyMatch (r1 r2 : ProcRec) : Bool :=
  match r1.email_n with
  | some e => e ≠ "" && r2.email_n = some e
  | none => false

/-- The phone arm (`elif`) of the exact-match test. -/
def phoneKeyMatch (r1 r2 : ProcRec) : Bool :=
  match r1.phone_n with
  | some e => e ≠ "" && r2.phone_n = some e
  | none => false

/-- Inner loop of `EntityResolver._find_exact_matches`: collect every later
unprocessed record matching the anchor `r1` on email or phone. -/
def coreInner (r1 : ProcRec) :
    List (Nat × ProcRec) → List Nat → List Nat × List Nat
  | [], proc => ([], proc)
  | (j, r2) :: t, proc =>
    if j ∈ proc then coreInner r1 t proc
    else if emailKeyMatch r1 r2 || phoneKeyMatch r1 r2 then
      let r := coreInner r1 t (proc ++ [j])
      (j :: r.1, r.2)
    else coreInner r1 t proc

/-- Outer loop of `_find_exact_matches`; groups of size at least two are
kept. -/
def coreScan : List (Nat × ProcRec) → List Nat → List (List Nat) × List Nat
  | [], proc => ([], proc)
  | (i, r1) :: t, proc =>
    if i ∈ proc then coreScan t proc
    else
      let inner := coreInner r1 t (proc ++ [i])
      let rest := coreScan t inner.2
      if inner.1.isEmpty then rest else ((i :: inner.1) :: rest.1, rest.2)

def enumFrom : Nat → List ProcRec → List (Nat × ProcRec)
  | _, [] => []
  | i, r :: rs => (i, r) :: enumFrom (i + 1) rs

/-- `EntityResolver._find_exact_matches` over the preprocessed records. -/
def find_exact_matches (prs : List ProcRec) : List (List Nat) :=
  (coreScan (enumFrom 0 prs) []).1

/-- `np.mean` of the similarities of a record against one cluster. -/
def clusterAvg (prs : List ProcRec) (r : ProcRec) (c : List Nat) : ℚ :=
  meanQ (c.map (fun j => calculate_similarity r (prs.getD j default)))

/-- The best-cluster search of the fuzzy second pass: clusters whose
average similarity strictly exceeds the threshold, strictly improving the
best seen so far.  The threshold is modelled from the spec
(`merge_threshold` default 0.70; the configuration file is not under
`src/`). -/
def bestCluster (prs : List ProcRec) (r : ProcRec) :
    List (List Nat) → Nat → ℚ → Option Nat → Option Nat
  | [], _, _, best => best
  | c :: cs, i, bestSim, best =>
    let avg := clusterAvg prs r c
    if 7/10 < avg ∧ bestSim < avg then
      bestCluster prs r cs (i + 1) avg (some i)
    else bestCluster prs r cs (i + 1) bestSim best

/-- `clusters[best_cluster].append(record_id)`. -/
def appendAt (cs : List (List Nat)) (b : Nat) (i : Nat) : List (List Nat) :=
  cs.set b (cs.getD b [] ++ [i])

/-- The fuzzy second pass of `resolve_entities` over the remaining record
indices. -/
def fuzzyFold (prs : List ProcRec) :
    List Nat → List (List Nat) → List (List Nat)
  | [], cs => cs
  | i :: rest, cs =>
    match bestCluster prs (prs.getD i default) cs 0 0 none with
    | some b => fuzzyFold prs rest (appendAt cs b i)
    | none => fuzzyFold prs rest (cs ++ [[i]])

/-- The cluster list of `EntityResolver.resolve_entities`: exact groups,
then the fuzzy pass over the records no exact group placed. -/
def coreClusters (prs : List ProcRec) : List (List Nat) :=
  let eg := find_exact_matches prs
  let remaining := (List.range prs.length).filter (fun i => i ∉ eg.flatten)
  fuzzyFold prs remaining eg

/-- An output entity of `resolve_entities`.  `created_at`/`updated_at`
carry the wall-clock reading (`datetime.now().isoformat()`), and `sources`
carries the `list(set(...))` of member source systems in the order chosen
by the Python set iteration. -/
structure CoreEntity where
  entity_id : String
  entity_type : String
  records : List ProcRec
  pep_ind : Bool
  confidence : ℚ
  created_at : String
  updated_at : String
  record_count : Nat
  sources : List String
  primary_name : String
  primary_email : String
  primary_phone : String
  primary_address : String
  deriving DecidableEq

/-- Build one entity from a cluster.  `now` models the wall clock at entity
creation; `σ` models the iteration order CPython's string-hash-randomized
`set` imposes on `list(set(...))` (a permutation of the distinct source
systems). -/
def mkCoreEntity (now : String) (σ : List String → List String)
    (prs : List ProcRec) (cid : Nat) (c : List Nat) : CoreEntity :=
  let rs := c.map (fun j => prs.getD j default)
  { entity_id := "ENT" ++ pad6 cid
    entity_type := determine_entity_type rs
    records := rs
    pep_ind := determine_pep_status rs
    confidence := calculate_entity_confidence rs
    created_at := now
    updated_at := now
    record_count := rs.length
    sources := σ (firstOccur (rs.map (fun r => r.source_system.getD "unknown")))
    primary_name := getPrimaryName rs
    primary_email := getPrimaryEmail rs
    primary_phone := getPrimaryPhone rs
    primary_address := getPrimaryAddress rs }

def mkCoreEntities (now : String) (σ : List String → List String)
    (prs : List ProcRec) : Nat → List (List Nat) → List CoreEntity
  | _, [] => []
  | n, c :: cs => mkCoreEntity now σ prs n c :: mkCoreEntities now σ prs (n + 1) cs

/-- `EntityResolver.resolve_entities`, parameterized by the wall clock and
the set-iteration order (the two run-dependent inputs of the source). -/
def resolve_entities (records : List CoreRecord) (now : String)
    (σ : List String → List String) : Except String (List CoreEntity) :=
  (records.mapM preprocess_record).map
    (fun prs => mkCoreEntities now σ prs 0 (coreClusters prs))

/-- An entity with the run-dependent parts quotiented away: timestamps
dropped, the sources list taken as a multiset. -/
structure CoreEntityView where
  entity_id : String
  entity_type : String
  records : List ProcRec
  pep_ind : Bool
  confidence : ℚ
  record_count : Nat
  sources : Multiset String
  primary_name : String
  primary_email : String
  primary_phone : String
  primary_address : String
  deriving DecidableEq

def stripEntity (e : CoreEntity) : CoreEntityView :=
  { entity_id := e.entity_id
    entity_type := e.entity_type
    records := e.records
    pep_ind := e.pep_ind
    confidence := e.confidence
    record_count := e.record_count
    sources := (e.sources : Multiset String)
    primary_name := e.primary_name
    primary_email := e.primary_email
    primary_phone := e.primary_phone
    primary_address := e.primary_address }

/-- The record combiner exactly as claim C2 words it: the weighted sum of
exactly those field similarities where both sides are non-empty, divided by
the sum of the weights of those fields; 0 when no field is comparable. -/
def claimCombiner (r1 r2 : ProcRec) : ℚ :=
  let wn : ℚ := if r1.name_n.getD "" ≠ "" ∧ r2.name_n.getD "" ≠ "" then 2/5 else 0
  let we : ℚ := if r1.email_n.getD "" ≠ "" ∧ r2.email_n.getD "" ≠ "" then 3/10 else 0
  let wp : ℚ := if r1.phone_n.getD "" ≠ "" ∧ r2.phone_n.getD "" ≠ "" then 1/5 else 0
  let wa : ℚ := if r1.address_n.getD "" ≠ "" ∧ r2.address_n.getD "" ≠ "" then 1/10 else 0
  let total := wn + we + wp + wa
  if total = 0 then 0
  else (wn * calculate_name_similarity (r1.name_n.getD "") (r2.name_n.getD "")
      + we * calculate_email_similarity (r1.email_n.getD "") (r2.email_n.getD "")
      + wp * calculate_phone_similarity (r1.phone_n.getD "") (r2.phone_n.getD "")
      + wa * calculate_address_similarity (r1.address_n.getD "") (r2.address_n.getD ""))
    / total

/-- The record combiner as the amended claim words it: a field contributes
exactly when both records carry its key (an empty carried value scores 0);
the weighted sum over the carried fields is divided by the sum of their
weights, and 0 is returned when no field is shared. -/
def presentCombiner (r1 r2 : ProcRec) : ℚ :=
  let wn : ℚ := if r1.name_n.isSome ∧ r2.name_n.isSome then 2/5 else 0
  let we : ℚ := if r1.email_n.isSome ∧ r2.email_n.isSome then 3/10 else 0
  let wp : ℚ := if r1.phone_n.isSome ∧ r2.phone_n.isSome then 1/5 else 0
  let wa : ℚ := if r1.address_n.isSome ∧ r2.address_n.isSome then 1/10 else 0
  let total := wn + we + wp + wa
  if total = 0 then 0
  else (wn * calculate_name_similarity (r1.name_n.getD "") (r2.name_n.getD "")
      + we * calculate_email_similarity (r1.email_n.getD "") (r2.email_n.getD "")
      + wp * calculate_phone_similarity (r1.phone_n.getD "") (r2.phone_n.getD "")
      + wa * calculate_address_similarity (r1.address_n.getD "") (r2.address_n.getD ""))
    / total

/-- Claim C8's business test: some member's raw name contains a
business-suffix token case-insensitively as a whole word. -/
def wholeWordBiz (records : List ProcRec) : Bool :=
  records.any (fun r =>
    business_indicators.any (fun t => (wordsOf (lowerStr (r.name.getD ""))).contains t))

/-- Claim C8's fallback test: the majority of members have a single-token
name. -/
def singleTokenMajority (records : List ProcRec) : Bool :=
  records.length < 2 * (records.filter
    (fun r => (wordsOf (r.name.getD "")).length == 1)).length

/-- Claim C8's business classification condition. -/
def claimBizCond (records : List ProcRec) : Bool :=
  wholeWordBiz records || singleTokenMajority records

/-- Claim C8's PEP condition: some member's raw name contains a PEP token
case-insensitively as a whole word. -/
def wholeWordPep (records : List ProcRec) : Bool :=
  records.any (fun r =>
    pep_indicators.any (fun t => (wordsOf (lowerStr (r.name.getD ""))).contains t))

/-- Concrete record for the combiner analysis: name `"john"` and an
empty-but-present email. -/
def c2rec : CoreRecord :=
  { name := some (.s "john"), email := some (.s ""), phone := none
    address := none, source_system := none }

/-- Its preprocessed form. -/
def c2pr : ProcRec :=
  { name := some "john", email := some "", phone := none, address := none
    source_system := none, name_n := some "john", email_n := some ""
    phone_n := none, address_n := none }

/-- Concrete records for the early-termination analysis: name similarity
5/18 < 0.3, all other fields equal and non-empty. -/
def c6r1 : CoreRecord :=
  { name := some (.s "abc"), email := some (.s "e@x"), phone := some (.s "123")
    address := some (.s "z st"), source_system := none }

def c6r2 : CoreRecord :=
  { name := some (.s "axydef"), email := some (.s "e@x"), phone := some (.s "123")
    address := some (.s "z st"), source_system := none }

def c6p1 : ProcRec :=
  { name := some "abc", email := some "e@x", phone := some "123"
    address := some "z st", source_system := none, name_n := some "abc"
    email_n := some "e@x", phone_n := some "123", address_n := some "z st" }

def c6p2 : ProcRec :=
  { name := some "axydef", email := some "e@x", phone := some "123"
    address := some "z st", source_system := none, name_n := some "axydef"
    email_n := some "e@x", phone_n := some "123", address_n := some "z st" }

/-- Concrete input for the determinism analysis: two records sharing an
email, no name keys. -/
def c4rec : CoreRecord :=
  { name := none, email := some (.s "a@x"), phone := none, address := none
    source_system := some "SysA" }

/-- A record whose present name is null-like (a pandas `NaN`): core
preprocessing raises on it. -/
def c9rec : CoreRecord :=
  { name := some .na, email := none, phone := none, address := none
    source_system := none }

/-- Concrete records for the absorption analysis in the core resolver:
the anchor scan of `_find_exact_matches` absorbs `c1recB` into
`c1recA`'s group by phone before `c1recC` — which shares `c1recB`'s
non-empty email — is ever compared against `c1recB`. -/
def c1recA : CoreRecord :=
  { name := some (.s "zzzz"), email := some (.s ""), phone := some (.s "1")
    address := none, source_system := none }

def c1recB : CoreRecord :=
  { name := some (.s "qqqq"), email := some (.s "e@x"), phone := some (.s "1")
    address := none, source_system := none }

def c1recC : CoreRecord :=
  { name := some (.s "wwww"), email := some (.s "e@x"), phone := none
    address := none, source_system := none }

/-- An input record with the raw name `"Nicole Smith"`. -/
def nicoleCore : CoreRecord :=
  { name := some (.s "Nicole Smith"), email := none, phone := none
    address := none, source_system := none }

/-- Its preprocessed form. -/
def nicoleRec : ProcRec :=
  { name := some "Nicole Smith", email := none, phone := none, address := none
    source_system := none, name_n := some "nicole smith", email_n := none
    phone_n := none, address_n := none }

end Core

/-! ## Lemmas and claim theorems -/

section

/- The Batteries rational operations are `@[irreducible]`; re-enable
unfolding locally so that `decide` can evaluate concrete scores. -/
attribute [local semireducible] Rat.add Rat.mul Rat.inv Rat.sub

namespace Core

theorem seg_w_sum (w : ℚ) (f : String → String → ℚ) (o1 o2 : Option String) :
    ((seg w f o1 o2).map (fun wv => wv.1)).sum
      = if o1.isSome ∧ o2.isSome then w else 0 := by
  cases o1 <;> cases o2 <;> simp [seg]

theorem seg_v_sum (w : ℚ) (f : String → String → ℚ) (o1 o2 : Option String) :
    ((seg w f o1 o2).map (fun wv => wv.2 * wv.1)).sum
      = if o1.isSome ∧ o2.isSome then w * f (o1.getD "") (o2.getD "") else 0 := by
  cases o1 <;> cases o2 <;> simp [seg, mul_comm]

/-- The `if not similarities` early return of the combiner is subsumed by
the `total_weight > 0` test. -/
theorem calc_sim_alt (r1 r2 : ProcRec) :
    calculate_similarity r1 r2 =
      (if 0 < ((fieldSims r1 r2).map (fun wv => wv.1)).sum then
        ((fieldSims r1 r2).map (fun wv => wv.2 * wv.1)).sum
          / ((fieldSims r1 r2).map (fun wv => wv.1)).sum
      else 0) := by
  unfold calculate_similarity
  cases h : fieldSims r1 r2 with
  | nil => simp [h]
  | cons a t => simp [h]

theorem calc_sim_eq_presentCombiner (r1 r2 : ProcRec) :
    calculate_similarity r1 r2 = presentCombiner r1 r2 := by
  rw [calc_sim_alt]
  unfold fieldSims presentCombiner
  simp only [List.map_append, List.sum_append, seg_w_sum, seg_v_sum]
  by_cases hn : r1.name_n.isSome ∧ r2.name_n.isSome <;>
    by_cases he : r1.email_n.isSome ∧ r2.email_n.isSome <;>
      by_cases hp : r1.phone_n.isSome ∧ r2.phone_n.isSome <;>
        by_cases ha : r1.address_n.isSome ∧ r2.address_n.isSome <;>
          simp only [hn, he, hp, ha, if_true, if_false, if_pos, if_neg,
            not_false_iff, eq_self_iff_true] <;>
          norm_num

end Core

namespace Fast

/-- The email/phone exact boosts add at most 0.3 to the incoming score. -/
theorem exactBoost_le (s : ℚ) (p q : NParty) : exactBoost s p q ≤ s + 3/10 := by
  unfold exactBoost
  split_ifs <;> linarith

/-- When the name ratio is below 0.3, the fast combiner (with its early
return) stays strictly below the 0.7 merge threshold. -/
theorem simFast_lt_of_low_name (p q : NParty) (h : nameSimFast p q < 3/10) :
    calculate_similarity_fast p q < 7/10 := by
  unfold nameSimFast at h
  unfold calculate_similarity_fast
  by_cases hc : p.name_n ≠ "" ∧ q.name_n ≠ ""
  · rw [if_pos hc] at h
    rw [if_pos hc, if_pos h]
    linarith
  · rw [if_neg hc]
    have := exactBoost_le 0 p q
    linarith

/-- When the name ratio is below 0.3, the combiner without the early
return also stays strictly below the 0.7 merge threshold. -/
theorem simFastNoEarly_lt_of_low_name (p q : NParty)
    (h : nameSimFast p q < 3/10) : similarity_fast_noEarly p q < 7/10 := by
  unfold nameSimFast at h
  unfold similarity_fast_noEarly
  by_cases hc : p.name_n ≠ "" ∧ q.name_n ≠ ""
  · rw [if_pos hc] at h
    rw [if_pos hc]
    have := exactBoost_le ((fuzzRatio p.name_n q.name_n / 100) * (2/5)) p q
    linarith
  · rw [if_neg hc]
    have := exactBoost_le 0 p q
    linarith

end Fast

/-- C2. The claim's combiner (restrict to non-empty fields, divide by their
weights) disagrees with the code on two records that both carry a name
`"john"` and a present-but-empty email: the code scores 4/7, the claim
demands 1. -/
theorem C2_counterexample :
    Core.preprocess_record Core.c2rec = Except.ok Core.c2pr ∧
    Core.calculate_similarity Core.c2pr Core.c2pr ≠
      Core.claimCombiner Core.c2pr Core.c2pr :=
  ⟨rfl, by decide⟩

/-- C2 (amended): the record-level similarity equals the weighted sum over
exactly those fields whose normalized key is carried by both records (an
empty carried value contributing similarity 0), divided by the sum of the
weights of those fields, and 0 when no field is shared. -/
theorem C2_theorem (r1 r2 : Core.ProcRec) :
    Core.calculate_similarity r1 r2 = Core.presentCombiner r1 r2 :=
  Core.calc_sim_eq_presentCombiner r1 r2

/-- C6. In the core combiner the claim fails: the pair
`("abc", "axydef")` has name similarity 5/18 < 0.3, yet with equal email,
phone and address the combined similarity is 32/45 ≥ 0.7. -/
theorem C6_counterexample :
    Core.preprocess_record Core.c6r1 = Except.ok Core.c6p1 ∧
    Core.preprocess_record Core.c6r2 = Except.ok Core.c6p2 ∧
    Core.calculate_name_similarity "abc" "axydef" < 3/10 ∧
    7/10 ≤ Core.calculate_similarity Core.c6p1 Core.c6p2 :=
  ⟨rfl, rfl, by decide, by decide⟩

/-- C6 (amended): in the fast resolver the early-termination note holds —
a pair whose name ratio is below 0.3 scores strictly below the 0.7 merge
threshold both with and without the early return, so the early return
never changes which pairs merge. -/
theorem C6_theorem (p q : Fast.NParty) (h : Fast.nameSimFast p q < 3/10) :
    Fast.calculate_similarity_fast p q < 7/10 ∧
    Fast.similarity_fast_noEarly p q < 7/10 ∧
    (7/10 ≤ Fast.calculate_similarity_fast p q ↔
      7/10 ≤ Fast.similarity_fast_noEarly p q) :=
  have h1 := Fast.simFast_lt_of_low_name p q h
  have h2 := Fast.simFastNoEarly_lt_of_low_name p q h
  ⟨h1, h2, iff_of_false (not_le.mpr h1) (not_le.mpr h2)⟩

theorem C6_witness :
    Fast.nameSimFast (Fast.preprocess_party 0 Fast.emptyParty)
        (Fast.preprocess_party 1 Fast.emptyParty) < 3/10 ∧
    Fast.calculate_similarity_fast (Fast.preprocess_party 0 Fast.emptyParty)
        (Fast.preprocess_party 1 Fast.emptyParty) < 7/10 :=
  ⟨by decide,
   (C6_theorem (Fast.preprocess_party 0 Fast.emptyParty)
     (Fast.preprocess_party 1 Fast.emptyParty) (by decide)).1⟩

/-- C8. The classifiers use substring containment, not whole-word matching:
`"Nicole Smith"` contains the business token `"co"` as a substring, so the
code classifies the entity as a business although no whole-word token
matches and the name has two tokens. -/
theorem C8_counterexample :
    Core.preprocess_record Core.nicoleCore = Except.ok Core.nicoleRec ∧
    Core.determine_entity_type [Core.nicoleRec] = "biz" ∧
    Core.claimBizCond [Core.nicoleRec] = false :=
  ⟨rfl, by decide, by decide⟩

/-- C8 (amended): an entity is business iff some member's lower-cased raw
name contains a business token as a substring, or else more than half of
the members have a name with no space or a single whitespace token; the
PEP flag is set iff some member's lower-cased raw name contains a PEP token
as a substring. -/
theorem C8_theorem (rs : List Core.ProcRec) :
    (Core.determine_entity_type rs = "biz" ↔
      ((∃ r ∈ rs, ∃ t ∈ Core.business_indicators,
        isSubOf t.data (lowerStr (r.name.getD "")).data = true) ∨
       rs.length < 2 * (rs.filter Core.codeSingleTokenish).length)) ∧
    (Core.determine_pep_status rs = true ↔
      (∃ r ∈ rs, ∃ t ∈ Core.pep_indicators,
        isSubOf t.data (lowerStr (r.name.getD "")).data = true)) := by
  constructor
  · unfold Core.determine_entity_type
    cases hA : rs.any (fun r =>
        Core.business_indicators.any (fun ind =>
          isSubOf ind.data (lowerStr (r.name.getD "")).data)) with
    | false =>
      simp only [hA, Bool.false_eq_true, if_false]
      rw [List.any_eq_false] at hA
      by_cases hB : rs.length < 2 * (rs.filter Core.codeSingleTokenish).length
      · simp only [if_pos hB, true_iff, eq_self_iff_true]
        exact Or.inr hB
      · simp only [if_neg hB]
        constructor
        · intro hcontra
          exact absurd hcontra (by decide)
        · rintro (⟨r, hr, t, ht, hsub⟩ | hlen)
          · have hinner := hA r hr
            simp only [List.any_eq_true, not_exists, not_and] at hinner
            exact absurd hsub (by simpa using hinner t ht)
          · exact absurd hlen hB
    | true =>
      simp only [hA, if_true]
      rw [List.any_eq_true] at hA
      constructor
      · intro _
        left
        obtain ⟨r, hr, hin⟩ := hA
        rw [List.any_eq_true] at hin
        obtain ⟨t, ht, hsub⟩ := hin
        exact ⟨r, hr, t, ht, hsub⟩
      · intro _
        trivial
  · unfold Core.determine_pep_status
    simp [List.any_eq_true]

namespace Core

/-- Entity construction is insensitive, up to `stripEntity`, to the wall
clock and to the set-iteration order. -/
theorem stripEntity_mk (now now' : String) (σ σ' : List String → List String)
    (hσ : ∀ l, List.Perm (σ l) l) (hσ' : ∀ l, List.Perm (σ' l) l)
    (prs : List ProcRec) (n : Nat) (c : List Nat) :
    stripEntity (mkCoreEntity now σ prs n c) =
      stripEntity (mkCoreEntity now' σ' prs n c) := by
  unfold stripEntity mkCoreEntity
  simp only [CoreEntityView.mk.injEq, and_true, true_and, eq_self_iff_true]
  exact Multiset.coe_eq_coe.mpr ((hσ _).trans ((hσ' _).symm))

theorem mkEntities_strip_eq (now now' : String)
    (σ σ' : List String → List String)
    (hσ : ∀ l, List.Perm (σ l) l) (hσ' : ∀ l, List.Perm (σ' l) l)
    (prs : List ProcRec) :
    ∀ (cs : List (List Nat)) (n : Nat),
      (mkCoreEntities now σ prs n cs).map stripEntity =
        (mkCoreEntities now' σ' prs n cs).map stripEntity := by
  intro cs
  induction cs with
  | nil => intro n; rfl
  | cons c cs ih =>
    intro n
    simp only [mkCoreEntities, List.map_cons]
    rw [stripEntity_mk now now' σ σ' hσ hσ' prs n c, ih (n + 1)]

end Core

/-- C4. Two runs of `resolve_entities` over the same input differ:
`created_at`/`updated_at` carry the wall-clock reading, so runs at
different times are not byte-identical. -/
theorem C4_counterexample :
    Core.resolve_entities [Core.c4rec, Core.c4rec] "2024-01-01T00:00:00" id ≠
      Core.resolve_entities [Core.c4rec, Core.c4rec] "2024-01-02T00:00:00" id := by
  intro h
  have h2 := congrArg
    (fun x => x.toOption.map (List.map Core.CoreEntity.created_at)) h
  exact absurd h2 (by decide)

/-- C4 (amended): two runs over the same input and configuration produce
identical entity sequences apart from the `created_at`/`updated_at`
wall-clock timestamps and the ordering of each entity's `sources` list
(Python set iteration order); every other field, and the sources as a set,
coincide, and both runs fail identically on bad input. -/
theorem C4_theorem (records : List Core.CoreRecord) (now now' : String)
    (σ σ' : List String → List String)
    (hσ : ∀ l, List.Perm (σ l) l) (hσ' : ∀ l, List.Perm (σ' l) l) :
    (Core.resolve_entities records now σ).map (List.map Core.stripEntity) =
      (Core.resolve_entities records now' σ').map (List.map Core.stripEntity) := by
  unfold Core.resolve_entities
  cases records.mapM Core.preprocess_record with
  | error e => rfl
  | ok prs =>
    simp only [Except.map]
    exact congrArg Except.ok
      (Core.mkEntities_strip_eq now now' σ σ' hσ hσ' prs _ 0)

theorem C4_witness :
    (∀ l : List String, List.Perm (id l) l) ∧
    (∀ l : List String, List.Perm l.reverse l) ∧
    (Core.resolve_entities [Core.c4rec, Core.c4rec] "T1" id).map
        (List.map Core.stripEntity) =
      (Core.resolve_entities [Core.c4rec, Core.c4rec] "T2" List.reverse).map
        (List.map Core.stripEntity) :=
  ⟨fun l => List.Perm.refl l, fun l => List.reverse_perm l,
   C4_theorem [Core.c4rec, Core.c4rec] "T1" "T2" id List.reverse
     (fun l => List.Perm.refl l) (fun l => List.reverse_perm l)⟩

/-- C9. Core normalization is not total: a present null-like name makes
`preprocess_record` raise (`re.sub` on a non-string). -/
theorem C9_counterexample :
    Core.preprocess_record Core.c9rec = Except.error "TypeError: name" := rfl

/-- C9 (amended): in the fast resolver normalization is total — an absent,
empty, or null-like name, email or phone maps to the empty normalized
string and no exception is possible; the core resolver instead raises on
present null-like values and omits the normalized key of an absent field. -/
theorem C9_theorem (i : Nat) (p : Fast.Party) :
    ((p.name = .na ∨ p.name = .s "") →
      (Fast.preprocess_party i p).name_n = "") ∧
    ((p.email = .na ∨ p.email = .s "") →
      (Fast.preprocess_party i p).email_n = "") ∧
    ((p.phone = .na ∨ p.phone = .s "") →
      (Fast.preprocess_party i p).phone_n = "") := by
  refine ⟨?_, ?_, ?_⟩ <;> rintro (h | h) <;> simp [Fast.preprocess_party, h]

theorem C9_witness :
    (Fast.emptyParty.name = .na ∨ Fast.emptyParty.name = .s "") ∧
    (Fast.emptyParty.email = .na ∨ Fast.emptyParty.email = .s "") ∧
    (Fast.emptyParty.phone = .na ∨ Fast.emptyParty.phone = .s "") ∧
    (Fast.preprocess_party 0 Fast.emptyParty).name_n = "" ∧
    (Fast.preprocess_party 0 Fast.emptyParty).email_n = "" ∧
    (Fast.preprocess_party 0 Fast.emptyParty).phone_n = "" := by
  refine ⟨Or.inl rfl, Or.inl rfl, Or.inl rfl, ?_, ?_, ?_⟩
  · exact (C9_theorem 0 Fast.emptyParty).1 (Or.inl rfl)
  · exact (C9_theorem 0 Fast.emptyParty).2.1 (Or.inl rfl)
  · exact (C9_theorem 0 Fast.emptyParty).2.2 (Or.inl rfl)

theorem mem_firstOccurAux :
    ∀ (l : List String) (seen : List String) (k : String),
      k ∈ firstOccurAux seen l ↔ k ∈ l ∧ k ∉ seen := by
  intro l
  induction l with
  | nil => intro seen k; simp [firstOccurAux]
  | cons a t ih =>
    intro seen k
    by_cases ha : a ∈ seen
    · rw [firstOccurAux, if_pos ha, ih]
      constructor
      · rintro ⟨hk, hns⟩
        exact ⟨List.mem_cons_of_mem _ hk, hns⟩
      · rintro ⟨hk, hns⟩
        rcases List.mem_cons.mp hk with h | h
        · subst h; exact absurd ha hns
        · exact ⟨h, hns⟩
    · rw [firstOccurAux, if_neg ha]
      constructor
      · intro hk
        rcases List.mem_cons.mp hk with h | h
        · subst h; exact ⟨List.mem_cons_self _ _, ha⟩
        · have h2 := (ih _ k).mp h
          exact ⟨List.mem_cons_of_mem _ h2.1,
            fun hkseen => h2.2 (List.mem_cons_of_mem _ hkseen)⟩
      · rintro ⟨hk, hns⟩
        rcases List.mem_cons.mp hk with h | h
        · subst h; exact List.mem_cons_self _ _
        · by_cases hka : k = a
          · subst hka; exact List.mem_cons_self _ _
          · refine List.mem_cons_of_mem _ ((ih _ k).mpr ⟨h, fun hx => ?_⟩)
            rcases List.mem_cons.mp hx with h1 | h1
            · exact hka h1
            · exact hns h1

theorem nodup_firstOccurAux :
    ∀ (l : List String) (seen : List String), (firstOccurAux seen l).Nodup := by
  intro l
  induction l with
  | nil => intro seen; simp [firstOccurAux]
  | cons a t ih =>
    intro seen
    by_cases ha : a ∈ seen
    · rw [firstOccurAux, if_pos ha]; exact ih seen
    · rw [firstOccurAux, if_neg ha]
      refine List.nodup_cons.mpr ⟨?_, ih _⟩
      intro hmem
      exact ((mem_firstOccurAux t (a :: seen) a).mp hmem).2 (List.mem_cons_self _ _)

theorem mem_firstOccur {l : List String} {k : String} :
    k ∈ firstOccur l ↔ k ∈ l := by
  unfold firstOccur
  rw [mem_firstOccurAux]
  simp

theorem nodup_firstOccur (l : List String) : (firstOccur l).Nodup :=
  nodup_firstOccurAux l []

namespace Fast

theorem preprocessAll_map_idx :
    ∀ (ps : List Party) (i : Nat),
      (preprocessAll i ps).map (·.idx) = List.range' i ps.length := by
  intro ps
  induction ps with
  | nil => intro i; rfl
  | cons p t ih =>
    intro i
    simp only [preprocessAll, List.map_cons, List.length_cons, List.range'_succ]
    exact congrArg _ (ih (i + 1))

theorem mem_preprocessAll :
    ∀ (ps : List Party) (i : Nat) (m : NParty),
      m ∈ preprocessAll i ps → m = preprocess_party m.idx m.raw ∧ m.raw ∈ ps := by
  intro ps
  induction ps with
  | nil => intro i m h; cases h
  | cons p t ih =>
    intro i m h
    rcases List.mem_cons.mp h with h | h
    · subst h; exact ⟨rfl, List.mem_cons_self _ _⟩
    · obtain ⟨h1, h2⟩ := ih (i + 1) m h
      exact ⟨h1, List.mem_cons_of_mem _ h2⟩

theorem preprocessAll_map_pid :
    ∀ (ps : List Party) (i : Nat),
      (preprocessAll i ps).map (·.raw.party_id) = ps.map (·.party_id) := by
  intro ps
  induction ps with
  | nil => intro i; rfl
  | cons p t ih =>
    intro i
    simp only [preprocessAll, List.map_cons]
    exact congrArg _ (ih (i + 1))

theorem nodup_processed_idx (ps : List Party) :
    ((processedOf ps).map (·.idx)).Nodup := by
  unfold processedOf
  rw [preprocessAll_map_idx]
  exact List.nodup_range' 0 ps.length

theorem processed_idx_inj {ps : List Party} {p q : NParty}
    (hp : p ∈ processedOf ps) (hq : q ∈ processedOf ps)
    (h : p.idx = q.idx) : p = q :=
  List.inj_on_of_nodup_map (nodup_processed_idx ps) hp hq h

theorem mem_gatherBy {key : NParty → String} {ps : List NParty}
    {k : String} {g : List NParty} (h : (k, g) ∈ gatherBy key ps) :
    g = ps.filter (fun p => key p = k) ∧ k ∈ ps.map key := by
  unfold gatherBy at h
  rcases List.mem_map.mp h with ⟨k', hk', heq⟩
  injection heq with h1 h2
  subst h1
  subst h2
  exact ⟨rfl, mem_firstOccur.mp hk'⟩

theorem gatherBy_member {key : NParty → String} {ps : List NParty}
    {k : String} {g : List NParty} {p : NParty}
    (h : (k, g) ∈ gatherBy key ps) (hp : p ∈ g) : p ∈ ps ∧ key p = k := by
  obtain ⟨hg, -⟩ := mem_gatherBy h
  subst hg
  have h2 := List.mem_filter.mp hp
  exact ⟨h2.1, by simpa using h2.2⟩

theorem gatherBy_self_mem (key : NParty → String) {ps : List NParty}
    {p : NParty} (hp : p ∈ ps) :
    ∃ g, (key p, g) ∈ gatherBy key ps ∧ p ∈ g := by
  refine ⟨ps.filter (fun q => key q = key p), ?_, ?_⟩
  · unfold gatherBy
    exact List.mem_map.mpr
      ⟨key p, mem_firstOccur.mpr (List.mem_map_of_mem _ hp), rfl⟩
  · exact List.mem_filter.mpr ⟨hp, by simp⟩

theorem gatherBy_disj {key : NParty → String} {ps : List NParty}
    (h : (ps.map (·.idx)).Nodup) : BucketsDisj (gatherBy key ps) := by
  unfold gatherBy BucketsDisj
  rw [List.pairwise_map]
  refine List.Pairwise.imp ?_ (nodup_firstOccur (ps.map key))
  intro k k' hne p hp q hq hidx
  have hp' := List.mem_filter.mp hp
  have hq' := List.mem_filter.mp hq
  have hpq : p = q := List.inj_on_of_nodup_map h hp'.1 hq'.1 hidx
  subst hpq
  have e1 : key p = k := by simpa using hp'.2
  have e2 : key p = k' := by simpa using hq'.2
  exact hne (e1 ▸ e2)

theorem gatherBy_bucket_nodup {key : NParty → String} {ps : List NParty}
    {k : String} {g : List NParty} (h : (ps.map (·.idx)).Nodup)
    (hm : (k, g) ∈ gatherBy key ps) : (g.map (·.idx)).Nodup := by
  obtain ⟨hg, -⟩ := mem_gatherBy hm
  subst hg
  exact List.Nodup.sublist (List.Sublist.map _ (List.filter_sublist ps)) h

theorem emailFold_used_perm :
    ∀ (bs : List (String × List NParty)) (u : List Nat),
      List.Perm (emailFold bs u).2
        ((((emailFold bs u).1.flatten).map (·.idx)) ++ u) := by
  intro bs
  induction bs with
  | nil => intro u; simp [emailFold]
  | cons b t ih =>
    intro u
    obtain ⟨k, g⟩ := b
    match g with
    | [] => simpa [emailFold] using ih u
    | p :: rest =>
      rw [emailFold]
      by_cases hc : rest.length ≠ 0 ∧ p.idx ∉ u
      · rw [if_pos hc]
        simp only [List.flatten_cons, List.map_append]
        refine (ih (u ++ (p :: rest).map (·.idx))).trans ?_
        refine List.perm_iff_count.mpr ?_
        intro a
        simp only [List.count_append]
        omega
      · rw [if_neg hc]
        exact ih u

theorem emailFold_groups_sub :
    ∀ (bs : List (String × List NParty)) (u : List Nat) (g : List NParty),
      g ∈ (emailFold bs u).1 → ∃ k, (k, g) ∈ bs := by
  intro bs
  induction bs with
  | nil => intro u g h; simp [emailFold] at h
  | cons b t ih =>
    intro u g h
    obtain ⟨k0, g0⟩ := b
    match g0 with
    | [] =>
      rw [emailFold] at h
      obtain ⟨k, hk⟩ := ih u g h
      exact ⟨k, List.mem_cons_of_mem _ hk⟩
    | p :: rest =>
      rw [emailFold] at h
      by_cases hc : rest.length ≠ 0 ∧ p.idx ∉ u
      · rw [if_pos hc] at h
        rcases List.mem_cons.mp h with heq | htail
        · subst heq; exact ⟨k0, List.mem_cons_self _ _⟩
        · obtain ⟨k, hk⟩ := ih _ g htail
          exact ⟨k, List.mem_cons_of_mem _ hk⟩
      · rw [if_neg hc] at h
        obtain ⟨k, hk⟩ := ih u g h
        exact ⟨k, List.mem_cons_of_mem _ hk⟩

theorem emailFold_emits :
    ∀ (bs : List (String × List NParty)) (u : List Nat),
      BucketsDisj bs → BucketsFresh bs u →
      ∀ (k : String) (g : List NParty),
        (k, g) ∈ bs → 1 < g.length → g ∈ (emailFold bs u).1 := by
  intro bs
  induction bs with
  | nil => intro u _ _ k g h; cases h
  | cons b t ih =>
    intro u hdisj hfresh k g hmem hlen
    obtain ⟨k0, g0⟩ := b
    have hdisj' := List.pairwise_cons.mp hdisj
    rcases List.mem_cons.mp hmem with heq | htail
    · injection heq with e1 e2
      subst e1
      subst e2
      cases g with
      | nil => simp at hlen
      | cons p rest =>
        rw [emailFold]
        have hc : rest.length ≠ 0 ∧ p.idx ∉ u := by
          constructor
          · simp only [List.length_cons] at hlen
            omega
          · exact hfresh _ (List.mem_cons_self _ _) p (List.mem_cons_self _ _)
        rw [if_pos hc]
        exact List.mem_cons_self _ _
    · cases g0 with
      | nil =>
        rw [emailFold]
        exact ih u hdisj'.2
          (fun b hb => hfresh b (List.mem_cons_of_mem _ hb)) k g htail hlen
      | cons p rest =>
        rw [emailFold]
        by_cases hc : rest.length ≠ 0 ∧ p.idx ∉ u
        · rw [if_pos hc]
          refine List.mem_cons_of_mem _ (ih _ hdisj'.2 ?_ k g htail hlen)
          intro b hb q hq hqin
          rcases List.mem_append.mp hqin with h1 | h1
          · exact hfresh b (List.mem_cons_of_mem _ hb) q hq h1
          · rcases List.mem_map.mp h1 with ⟨p0, hp0, hpidx⟩
            exact hdisj'.1 b hb p0 hp0 q hq hpidx
        · rw [if_neg hc]
          exact ih u hdisj'.2
            (fun b hb => hfresh b (List.mem_cons_of_mem _ hb)) k g htail hlen

theorem emailFold_used_nodup :
    ∀ (bs : List (String × List NParty)) (u : List Nat),
      BucketsDisj bs → BucketsFresh bs u →
      (∀ b ∈ bs, (b.2.map (·.idx)).Nodup) → u.Nodup →
      (emailFold bs u).2.Nodup := by
  intro bs
  induction bs with
  | nil => intro u _ _ _ hu; simpa [emailFold] using hu
  | cons b t ih =>
    intro u hdisj hfresh hbn hu
    obtain ⟨k0, g0⟩ := b
    have hdisj' := List.pairwise_cons.mp hdisj
    match g0 with
    | [] =>
      rw [emailFold]
      exact ih u hdisj'.2
        (fun b hb => hfresh b (List.mem_cons_of_mem _ hb))
        (fun b hb => hbn b (List.mem_cons_of_mem _ hb)) hu
    | p :: rest =>
      rw [emailFold]
      by_cases hc : rest.length ≠ 0 ∧ p.idx ∉ u
      · rw [if_pos hc]
        refine ih _ hdisj'.2 ?_
          (fun b hb => hbn b (List.mem_cons_of_mem _ hb)) ?_
        · intro b hb q hq hqin
          rcases List.mem_append.mp hqin with h1 | h1
          · exact hfresh b (List.mem_cons_of_mem _ hb) q hq h1
          · rcases List.mem_map.mp h1 with ⟨p0, hp0, hpidx⟩
            exact hdisj'.1 b hb p0 hp0 q hq hpidx
        · refine List.Nodup.append hu
            (hbn (k0, p :: rest) (List.mem_cons_self _ _)) ?_
          intro a ha hain
          rcases List.mem_map.mp hain with ⟨p0, hp0, hpidx⟩
          exact hfresh (k0, p :: rest) (List.mem_cons_self _ _) p0 hp0
            (hpidx ▸ ha)
      · rw [if_neg hc]
        exact ih u hdisj'.2
          (fun b hb => hfresh b (List.mem_cons_of_mem _ hb))
          (fun b hb => hbn b (List.mem_cons_of_mem _ hb)) hu

theorem phoneFold_used_perm :
    ∀ (bs : List (String × List NParty)) (u : List Nat),
      List.Perm (phoneFold bs u).2
        ((((phoneFold bs u).1.flatten).map (·.idx)) ++ u) := by
  intro bs
  induction bs with
  | nil => intro u; simp [phoneFold]
  | cons b t ih =>
    intro u
    obtain ⟨k, g⟩ := b
    rw [phoneFold]
    by_cases hc : 1 < g.length
    · rw [if_pos hc]
      simp only [List.flatten_cons, List.map_append]
      refine (ih (u ++ g.map (·.idx))).trans ?_
      refine List.perm_iff_count.mpr ?_
      intro a
      simp only [List.count_append]
      omega
    · rw [if_neg hc]
      exact ih u

theorem phoneFold_groups_sub :
    ∀ (bs : List (String × List NParty)) (u : List Nat) (g : List NParty),
      g ∈ (phoneFold bs u).1 → ∃ k, (k, g) ∈ bs := by
  intro bs
  induction bs with
  | nil => intro u g h; simp [phoneFold] at h
  | cons b t ih =>
    intro u g h
    obtain ⟨k0, g0⟩ := b
    rw [phoneFold] at h
    by_cases hc : 1 < g0.length
    · rw [if_pos hc] at h
      rcases List.mem_cons.mp h with heq | htail
      · subst heq; exact ⟨k0, List.mem_cons_self _ _⟩
      · obtain ⟨k, hk⟩ := ih _ g htail
        exact ⟨k, List.mem_cons_of_mem _ hk⟩
    · rw [if_neg hc] at h
      obtain ⟨k, hk⟩ := ih u g h
      exact ⟨k, List.mem_cons_of_mem _ hk⟩

theorem phoneFold_emits :
    ∀ (bs : List (String × List NParty)) (u : List Nat)
      (k : String) (g : List NParty),
      (k, g) ∈ bs → 1 < g.length → g ∈ (phoneFold bs u).1 := by
  intro bs
  induction bs with
  | nil => intro u k g h; cases h
  | cons b t ih =>
    intro u k g hmem hlen
    obtain ⟨k0, g0⟩ := b
    rw [phoneFold]
    rcases List.mem_cons.mp hmem with heq | htail
    · injection heq with e1 e2
      subst e1
      subst e2
      rw [if_pos hlen]
      exact List.mem_cons_self _ _
    · by_cases hc : 1 < g0.length
      · rw [if_pos hc]
        exact List.mem_cons_of_mem _ (ih _ k g htail hlen)
      · rw [if_neg hc]
        exact ih u k g htail hlen

theorem phoneFold_used_nodup :
    ∀ (bs : List (String × List NParty)) (u : List Nat),
      BucketsDisj bs → BucketsFresh bs u →
      (∀ b ∈ bs, (b.2.map (·.idx)).Nodup) → u.Nodup →
      (phoneFold bs u).2.Nodup := by
  intro bs
  induction bs with
  | nil => intro u _ _ _ hu; simpa [phoneFold] using hu
  | cons b t ih =>
    intro u hdisj hfresh hbn hu
    obtain ⟨k0, g0⟩ := b
    have hdisj' := List.pairwise_cons.mp hdisj
    rw [phoneFold]
    by_cases hc : 1 < g0.length
    · rw [if_pos hc]
      refine ih _ hdisj'.2 ?_
        (fun b hb => hbn b (List.mem_cons_of_mem _ hb)) ?_
      · intro b hb q hq hqin
        rcases List.mem_append.mp hqin with h1 | h1
        · exact hfresh b (List.mem_cons_of_mem _ hb) q hq h1
        · rcases List.mem_map.mp h1 with ⟨p0, hp0, hpidx⟩
          exact hdisj'.1 b hb p0 hp0 q hq hpidx
      · refine List.Nodup.append hu (hbn (k0, g0) (List.mem_cons_self _ _)) ?_
        intro a ha hain
        rcases List.mem_map.mp hain with ⟨p0, hp0, hpidx⟩
        exact hfresh (k0, g0) (List.mem_cons_self _ _) p0 hp0 (hpidx ▸ ha)
    · rw [if_neg hc]
      exact ih u hdisj'.2
        (fun b hb => hfresh b (List.mem_cons_of_mem _ hb))
        (fun b hb => hbn b (List.mem_cons_of_mem _ hb)) hu

theorem absorb_used_perm :
    ∀ (p : NParty) (qs : List NParty) (u : List Nat),
      List.Perm (absorb p qs u).2 (((absorb p qs u).1.map (·.idx)) ++ u) := by
  intro p qs
  induction qs with
  | nil => intro u; simp [absorb]
  | cons q t ih =>
    intro u
    rw [absorb]
    by_cases h1 : q.idx ∈ u
    · rw [if_pos h1]; exact ih u
    · rw [if_neg h1]
      by_cases h2 : 7/10 ≤ calculate_similarity_fast p q
      · rw [if_pos h2]
        simp only [List.map_cons]
        refine (ih (u ++ [q.idx])).trans ?_
        refine List.perm_iff_count.mpr (fun a => ?_)
        simp only [List.count_append, List.count_cons, List.count_singleton',
          List.count_nil]
        omega
      · rw [if_neg h2]; exact ih u

theorem absorb_used_nodup :
    ∀ (p : NParty) (qs : List NParty) (u : List Nat),
      u.Nodup → (absorb p qs u).2.Nodup := by
  intro p qs
  induction qs with
  | nil => intro u hu; simpa [absorb] using hu
  | cons q t ih =>
    intro u hu
    rw [absorb]
    by_cases h1 : q.idx ∈ u
    · rw [if_pos h1]; exact ih u hu
    · rw [if_neg h1]
      by_cases h2 : 7/10 ≤ calculate_similarity_fast p q
      · rw [if_pos h2]
        refine ih (u ++ [q.idx]) ?_
        refine List.Nodup.append hu (List.nodup_singleton _) ?_
        intro a ha hain
        rw [List.mem_singleton] at hain
        exact h1 (hain ▸ ha)
      · rw [if_neg h2]; exact ih u hu

theorem absorb_members :
    ∀ (p : NParty) (qs : List NParty) (u : List Nat),
      ∀ m ∈ (absorb p qs u).1, m ∈ qs := by
  intro p qs
  induction qs with
  | nil => intro u m h; simp [absorb] at h
  | cons q t ih =>
    intro u m h
    rw [absorb] at h
    by_cases h1 : q.idx ∈ u
    · rw [if_pos h1] at h; exact List.mem_cons_of_mem _ (ih u m h)
    · rw [if_neg h1] at h
      by_cases h2 : 7/10 ≤ calculate_similarity_fast p q
      · rw [if_pos h2] at h
        rcases List.mem_cons.mp h with heq | htail
        · subst heq; exact List.mem_cons_self _ _
        · exact List.mem_cons_of_mem _ (ih _ m htail)
      · rw [if_neg h2] at h; exact List.mem_cons_of_mem _ (ih u m h)

theorem absorb_nil_of_lt :
    ∀ (p : NParty) (qs : List NParty) (u : List Nat),
      (∀ q ∈ qs, q.idx ∉ u → calculate_similarity_fast p q < 7/10) →
      absorb p qs u = ([], u) := by
  intro p qs
  induction qs with
  | nil => intro u _; rfl
  | cons q t ih =>
    intro u h
    rw [absorb]
    by_cases h1 : q.idx ∈ u
    · rw [if_pos h1]
      exact ih u (fun q' hq' => h q' (List.mem_cons_of_mem _ hq'))
    · rw [if_neg h1]
      rw [if_neg (not_le.mpr (h q (List.mem_cons_self _ _) h1))]
      exact ih u (fun q' hq' => h q' (List.mem_cons_of_mem _ hq'))

theorem groupPass_used_perm :
    ∀ (ps : List NParty) (u : List Nat),
      List.Perm (groupPass ps u).2
        ((((groupPass ps u).1.flatten).map (·.idx)) ++ u) := by
  intro ps
  induction ps with
  | nil => intro u; simp [groupPass]
  | cons p t ih =>
    intro u
    rw [groupPass]
    by_cases h1 : p.idx ∈ u
    · rw [if_pos h1]; exact ih u
    · rw [if_neg h1]
      simp only [List.flatten_cons, List.map_append, List.map_cons]
      have ha := absorb_used_perm p t (u ++ [p.idx])
      have hg := ih (absorb p t (u ++ [p.idx])).2
      refine hg.trans ?_
      refine List.perm_iff_count.mpr (fun a => ?_)
      have ca := List.Perm.count_eq ha a
      simp only [List.count_append, List.count_cons, List.count_singleton',
        List.count_nil] at ca ⊢
      omega

theorem groupPass_used_nodup :
    ∀ (ps : List NParty) (u : List Nat),
      u.Nodup → (groupPass ps u).2.Nodup := by
  intro ps
  induction ps with
  | nil => intro u hu; simpa [groupPass] using hu
  | cons p t ih =>
    intro u hu
    rw [groupPass]
    by_cases h1 : p.idx ∈ u
    · rw [if_pos h1]; exact ih u hu
    · rw [if_neg h1]
      refine ih _ (absorb_used_nodup p t (u ++ [p.idx]) ?_)
      refine List.Nodup.append hu (List.nodup_singleton _) ?_
      intro a ha hain
      rw [List.mem_singleton] at hain
      exact h1 (hain ▸ ha)

theorem groupPass_members :
    ∀ (ps : List NParty) (u : List Nat),
      ∀ g ∈ (groupPass ps u).1, ∀ m ∈ g, m ∈ ps := by
  intro ps
  induction ps with
  | nil => intro u g h; simp [groupPass] at h
  | cons p t ih =>
    intro u g h m hm
    rw [groupPass] at h
    by_cases h1 : p.idx ∈ u
    · rw [if_pos h1] at h; exact List.mem_cons_of_mem _ (ih u g h m hm)
    · rw [if_neg h1] at h
      rcases List.mem_cons.mp h with heq | htail
      · subst heq
        rcases List.mem_cons.mp hm with heq2 | htail2
        · subst heq2; exact List.mem_cons_self _ _
        · exact List.mem_cons_of_mem _ (absorb_members p t _ m htail2)
      · exact List.mem_cons_of_mem _ (ih _ g htail m hm)

theorem groupPass_groups_ne_nil :
    ∀ (ps : List NParty) (u : List Nat),
      ∀ g ∈ (groupPass ps u).1, g ≠ [] := by
  intro ps
  induction ps with
  | nil => intro u g h; simp [groupPass] at h
  | cons p t ih =>
    intro u g h
    rw [groupPass] at h
    by_cases h1 : p.idx ∈ u
    · rw [if_pos h1] at h; exact ih u g h
    · rw [if_neg h1] at h
      rcases List.mem_cons.mp h with heq | htail
      · subst heq; exact List.cons_ne_nil _ _
      · exact ih _ g htail

theorem groupPass_singletons :
    ∀ (ps : List NParty) (u : List Nat),
      (∀ p ∈ ps, ∀ q ∈ ps, p.idx ≠ q.idx →
        calculate_similarity_fast p q < 7/10) →
      ∀ g ∈ (groupPass ps u).1, g.length = 1 := by
  intro ps
  induction ps with
  | nil => intro u _ g h; simp [groupPass] at h
  | cons p t ih =>
    intro u hsim g h
    rw [groupPass] at h
    by_cases h1 : p.idx ∈ u
    · rw [if_pos h1] at h
      exact ih u (fun a ha b hb => hsim a (List.mem_cons_of_mem _ ha)
        b (List.mem_cons_of_mem _ hb)) g h
    · rw [if_neg h1] at h
      have habs : absorb p t (u ++ [p.idx]) = ([], u ++ [p.idx]) := by
        refine absorb_nil_of_lt p t (u ++ [p.idx]) ?_
        intro q hq hqn
        have hne : p.idx ≠ q.idx := by
          intro he
          exact hqn (List.mem_append.mpr (Or.inr (by simp [he])))
        exact hsim p (List.mem_cons_self _ _) q (List.mem_cons_of_mem _ hq) hne
      rw [habs] at h
      rcases List.mem_cons.mp h with heq | htail
      · subst heq; rfl
      · exact ih _ (fun a ha b hb => hsim a (List.mem_cons_of_mem _ ha)
          b (List.mem_cons_of_mem _ hb)) g htail

theorem groupBlocks_used_perm :
    ∀ (bs : List (String × List NParty)) (u : List Nat),
      List.Perm (groupBlocks bs u).2
        ((((groupBlocks bs u).1.flatten).map (·.idx)) ++ u) := by
  intro bs
  induction bs with
  | nil => intro u; simp [groupBlocks]
  | cons b t ih =>
    intro u
    obtain ⟨k, g⟩ := b
    rw [groupBlocks]
    by_cases h1 : g.length ≤ 1
    · rw [if_pos h1]; exact ih u
    · rw [if_neg h1]
      simp only [List.flatten_append, List.map_append]
      have hp := groupPass_used_perm g u
      have hg := ih (groupPass g u).2
      refine hg.trans ?_
      refine List.perm_iff_count.mpr (fun a => ?_)
      have ca := List.Perm.count_eq hp a
      simp only [List.count_append, List.count_cons, List.count_singleton',
        List.count_nil] at ca ⊢
      omega

theorem groupBlocks_used_nodup :
    ∀ (bs : List (String × List NParty)) (u : List Nat),
      u.Nodup → (groupBlocks bs u).2.Nodup := by
  intro bs
  induction bs with
  | nil => intro u hu; simpa [groupBlocks] using hu
  | cons b t ih =>
    intro u hu
    obtain ⟨k, g⟩ := b
    rw [groupBlocks]
    by_cases h1 : g.length ≤ 1
    · rw [if_pos h1]; exact ih u hu
    · rw [if_neg h1]
      exact ih _ (groupPass_used_nodup g u hu)

theorem groupBlocks_members :
    ∀ (bs : List (String × List NParty)) (u : List Nat),
      ∀ g ∈ (groupBlocks bs u).1, ∀ m ∈ g, ∃ b ∈ bs, m ∈ b.2 := by
  intro bs
  induction bs with
  | nil => intro u g h; simp [groupBlocks] at h
  | cons b t ih =>
    intro u g h m hm
    obtain ⟨k, g0⟩ := b
    rw [groupBlocks] at h
    by_cases h1 : g0.length ≤ 1
    · rw [if_pos h1] at h
      obtain ⟨b', hb', hmb⟩ := ih u g h m hm
      exact ⟨b', List.mem_cons_of_mem _ hb', hmb⟩
    · rw [if_neg h1] at h
      rcases List.mem_append.mp h with hhead | htail
      · exact ⟨(k, g0), List.mem_cons_self _ _,
          groupPass_members g0 u g hhead m hm⟩
      · obtain ⟨b', hb', hmb⟩ := ih _ g htail m hm
        exact ⟨b', List.mem_cons_of_mem _ hb', hmb⟩

theorem groupBlocks_groups_ne_nil :
    ∀ (bs : List (String × List NParty)) (u : List Nat),
      ∀ g ∈ (groupBlocks bs u).1, g ≠ [] := by
  intro bs
  induction bs with
  | nil => intro u g h; simp [groupBlocks] at h
  | cons b t ih =>
    intro u g h
    obtain ⟨k, g0⟩ := b
    rw [groupBlocks] at h
    by_cases h1 : g0.length ≤ 1
    · rw [if_pos h1] at h; exact ih u g h
    · rw [if_neg h1] at h
      rcases List.mem_append.mp h with hhead | htail
      · exact groupPass_groups_ne_nil g0 u g hhead
      · exact ih _ g htail

theorem groupBlocks_singletons :
    ∀ (bs : List (String × List NParty)) (u : List Nat),
      (∀ b ∈ bs, ∀ p ∈ b.2, ∀ q ∈ b.2, p.idx ≠ q.idx →
        calculate_similarity_fast p q < 7/10) →
      ∀ g ∈ (groupBlocks bs u).1, g.length = 1 := by
  intro bs
  induction bs with
  | nil => intro u _ g h; simp [groupBlocks] at h
  | cons b t ih =>
    intro u hsim g h
    obtain ⟨k, g0⟩ := b
    rw [groupBlocks] at h
    by_cases h1 : g0.length ≤ 1
    · rw [if_pos h1] at h
      exact ih u (fun b' hb' => hsim b' (List.mem_cons_of_mem _ hb')) g h
    · rw [if_neg h1] at h
      rcases List.mem_append.mp h with hhead | htail
      · exact groupPass_singletons g0 u
          (hsim (k, g0) (List.mem_cons_self _ _)) g hhead
      · exact ih _ (fun b' hb' => hsim b' (List.mem_cons_of_mem _ hb')) g htail

theorem one_lt_length_of_mem_ne {α : Type} {l : List α} {a b : α}
    (ha : a ∈ l) (hb : b ∈ l) (h : a ≠ b) : 1 < l.length := by
  match l with
  | [] => cases ha
  | [x] =>
    rw [List.mem_singleton] at ha hb
    exact absurd (ha.trans hb.symm) h
  | x :: y :: t => simp [List.length_cons]

theorem nodup_filter_idx {ps : List NParty} (h : (ps.map (·.idx)).Nodup)
    (f : NParty → Bool) : (((ps.filter f).map (·.idx))).Nodup :=
  List.Nodup.sublist (List.Sublist.map _ (List.filter_sublist ps)) h

theorem emailStage_used_perm (ps : List NParty) :
    List.Perm (emailStage ps).2 (((emailStage ps).1.flatten).map (·.idx)) := by
  have h := emailFold_used_perm (emailBuckets ps) []
  simpa using h

theorem emailStage_used_nodup (ps : List NParty)
    (h : (ps.map (·.idx)).Nodup) : (emailStage ps).2.Nodup := by
  refine emailFold_used_nodup (emailBuckets ps) []
    (gatherBy_disj (nodup_filter_idx h _)) ?_ ?_ List.nodup_nil
  · intro b _ p _ hp
    cases hp
  · intro b hb
    exact gatherBy_bucket_nodup (nodup_filter_idx h _) hb

theorem exact_used_perm (ps : List NParty) :
    List.Perm (find_exact_matches ps).2
      (((find_exact_matches ps).1.flatten).map (·.idx)) := by
  unfold find_exact_matches
  simp only [List.flatten_append, List.map_append]
  have h1 := emailStage_used_perm ps
  have h2 := phoneFold_used_perm (phoneBuckets ps (emailStage ps).2)
    (emailStage ps).2
  refine h2.trans ?_
  refine List.perm_iff_count.mpr (fun a => ?_)
  have c1 := List.Perm.count_eq h1 a
  simp only [List.count_append] at c1 ⊢
  omega

theorem exact_members (ps : List NParty) :
    ∀ g ∈ (find_exact_matches ps).1, ∀ m ∈ g, m ∈ ps := by
  intro g hg m hm
  unfold find_exact_matches at hg
  rcases List.mem_append.mp hg with h | h
  · obtain ⟨k, hk⟩ := emailFold_groups_sub _ [] g h
    exact (List.mem_filter.mp (gatherBy_member hk hm).1).1
  · obtain ⟨k, hk⟩ := phoneFold_groups_sub _ _ g h
    exact (List.mem_filter.mp (gatherBy_member hk hm).1).1

theorem exact_used_nodup (ps : List NParty)
    (h : (ps.map (·.idx)).Nodup) : (find_exact_matches ps).2.Nodup := by
  unfold find_exact_matches
  refine phoneFold_used_nodup _ _ (gatherBy_disj (nodup_filter_idx h _)) ?_
    (fun b hb => gatherBy_bucket_nodup (nodup_filter_idx h _) hb)
    (emailStage_used_nodup ps h)
  intro b hb p hp hpin
  have h2 := List.mem_filter.mp (gatherBy_member hb hp).1
  have h3 := of_decide_eq_true h2.2
  exact h3.2 hpin

theorem exact_groups_idx_used (ps : List NParty) :
    ∀ g ∈ (find_exact_matches ps).1, ∀ m ∈ g,
      m.idx ∈ (find_exact_matches ps).2 := by
  intro g hg m hm
  refine (List.Perm.mem_iff (exact_used_perm ps)).mpr ?_
  exact List.mem_map_of_mem _ (List.mem_flatten.mpr ⟨g, hg, hm⟩)

theorem exact_used_of_email_used (ps : List NParty) :
    ∀ x ∈ (emailStage ps).2, x ∈ (find_exact_matches ps).2 := by
  intro x hx
  unfold find_exact_matches
  simp only
  refine (List.Perm.mem_iff
    (phoneFold_used_perm (phoneBuckets ps (emailStage ps).2)
      (emailStage ps).2)).mpr ?_
  exact List.mem_append.mpr (Or.inr hx)

theorem email_absorb (ps : List NParty) (h : (ps.map (·.idx)).Nodup)
    {p q : NParty} (hp : p ∈ ps) (hq : q ∈ ps) (hne : p.idx ≠ q.idx)
    (he : p.email_n ≠ "") (heq : p.email_n = q.email_n) :
    ∃ g ∈ (find_exact_matches ps).1, p ∈ g ∧ q ∈ g := by
  have hp' : p ∈ ps.filter (fun r => r.email_n ≠ "") :=
    List.mem_filter.mpr ⟨hp, by simpa using he⟩
  have hq' : q ∈ ps.filter (fun r => r.email_n ≠ "") :=
    List.mem_filter.mpr ⟨hq, by simp [← heq]; exact he⟩
  obtain ⟨g, hgmem, hpg⟩ := gatherBy_self_mem (·.email_n) hp'
  have hqg : q ∈ g := by
    obtain ⟨hg, -⟩ := mem_gatherBy hgmem
    subst hg
    exact List.mem_filter.mpr ⟨hq', by simp [← heq]⟩
  have hpq : p ≠ q := fun he2 => hne (he2 ▸ rfl)
  have hlen : 1 < g.length := one_lt_length_of_mem_ne hpg hqg hpq
  have hemit := emailFold_emits (emailBuckets ps) []
    (gatherBy_disj (nodup_filter_idx h _))
    (fun b _ r _ hr => by cases hr) _ g hgmem hlen
  refine ⟨g, ?_, hpg, hqg⟩
  unfold find_exact_matches
  exact List.mem_append.mpr (Or.inl hemit)

theorem phone_absorb (ps : List NParty) (h : (ps.map (·.idx)).Nodup)
    {p q : NParty} (hp : p ∈ ps) (hq : q ∈ ps) (hne : p.idx ≠ q.idx)
    (hph : p.phone_n ≠ "") (heq : p.phone_n = q.phone_n)
    (hpu : p.idx ∉ (emailStage ps).2) (hqu : q.idx ∉ (emailStage ps).2) :
    ∃ g ∈ (find_exact_matches ps).1, p ∈ g ∧ q ∈ g := by
  have hp' : p ∈ ps.filter
      (fun r => r.phone_n ≠ "" ∧ r.idx ∉ (emailStage ps).2) :=
    List.mem_filter.mpr ⟨hp, by simp [hph, hpu]⟩
  have hq' : q ∈ ps.filter
      (fun r => r.phone_n ≠ "" ∧ r.idx ∉ (emailStage ps).2) :=
    List.mem_filter.mpr ⟨hq, by simp [← heq, hph, hqu]⟩
  obtain ⟨g, hgmem, hpg⟩ := gatherBy_self_mem (·.phone_n) hp'
  have hqg : q ∈ g := by
    obtain ⟨hg, -⟩ := mem_gatherBy hgmem
    subst hg
    exact List.mem_filter.mpr ⟨hq', by simp [← heq]⟩
  have hpq : p ≠ q := fun he2 => hne (he2 ▸ rfl)
  have hlen : 1 < g.length := one_lt_length_of_mem_ne hpg hqg hpq
  have hemit := phoneFold_emits (phoneBuckets ps (emailStage ps).2)
    (emailStage ps).2 _ g hgmem hlen
  refine ⟨g, ?_, hpg, hqg⟩
  unfold find_exact_matches
  exact List.mem_append.mpr (Or.inr hemit)

theorem survivors_distinct (ps : List NParty) (h : (ps.map (·.idx)).Nodup)
    {p q : NParty} (hp : p ∈ ps) (hq : q ∈ ps) (hne : p.idx ≠ q.idx)
    (hpu : p.idx ∉ (find_exact_matches ps).2)
    (hqu : q.idx ∉ (find_exact_matches ps).2) :
    ¬(p.email_n ≠ "" ∧ p.email_n = q.email_n) ∧
    ¬(p.phone_n ≠ "" ∧ p.phone_n = q.phone_n) := by
  constructor
  · rintro ⟨he, heq⟩
    obtain ⟨g, hg, hpg, -⟩ := email_absorb ps h hp hq hne he heq
    exact hpu (exact_groups_idx_used ps g hg p hpg)
  · rintro ⟨hph, heq⟩
    have hpu' : p.idx ∉ (emailStage ps).2 :=
      fun hx => hpu (exact_used_of_email_used ps _ hx)
    have hqu' : q.idx ∉ (emailStage ps).2 :=
      fun hx => hqu (exact_used_of_email_used ps _ hx)
    obtain ⟨g, hg, hpg, -⟩ := phone_absorb ps h hp hq hne hph heq hpu' hqu'
    exact hpu (exact_groups_idx_used ps g hg p hpg)

theorem mem_rawBlocks {rem : List NParty} {k : String} {g : List NParty}
    (h : (k, g) ∈ rawBlocks rem) :
    g = rem.filter (fun p => k ∈ partyKeys p) := by
  unfold rawBlocks at h
  rcases List.mem_map.mp h with ⟨k', hk', heq⟩
  injection heq with h1 h2
  subst h1
  subst h2
  rfl

theorem rawBlocks_member {rem : List NParty} {k : String} {g : List NParty}
    {p : NParty} (h : (k, g) ∈ rawBlocks rem) (hp : p ∈ g) : p ∈ rem := by
  have hg := mem_rawBlocks h
  subst hg
  exact (List.mem_filter.mp hp).1

theorem smartBlocks_sub (rem : List NParty) :
    ∀ kb ∈ create_smart_blocks rem, kb ∈ rawBlocks rem := by
  intro kb h
  exact (List.mem_filter.mp h).1

theorem smartBlocks_size (rem : List NParty) :
    ∀ kb ∈ create_smart_blocks rem, kb.2.length ≤ 1000 := by
  intro kb h
  have h2 := (List.mem_filter.mp h).2
  simpa using h2

theorem remaining_sub (ps : List Party) :
    ∀ p ∈ remainingOf ps, p ∈ processedOf ps := by
  intro p h
  exact (List.mem_filter.mp h).1

theorem remaining_not_used (ps : List Party) :
    ∀ p ∈ remainingOf ps, p.idx ∉ exactUsedOf ps := by
  intro p h
  have h2 := (List.mem_filter.mp h).2
  simpa using h2

theorem mem_remaining (ps : List Party) {p : NParty}
    (hp : p ∈ processedOf ps) (hu : p.idx ∉ exactUsedOf ps) :
    p ∈ remainingOf ps := by
  unfold remainingOf
  exact List.mem_filter.mpr ⟨hp, by simpa using hu⟩

theorem fuzzy_members (ps : List Party) :
    ∀ g ∈ fuzzyGroupsOf ps, ∀ m ∈ g,
      m ∈ remainingOf ps ∧ ∃ kb ∈ smartBlocksOf ps, m ∈ kb.2 := by
  intro g hg m hm
  unfold fuzzyGroupsOf find_entity_groups_blocked at hg
  obtain ⟨b, hb, hmb⟩ := groupBlocks_members _ [] g hg m hm
  have hraw : (b.1, b.2) ∈ rawBlocks (remainingOf ps) :=
    smartBlocks_sub _ b hb
  exact ⟨rawBlocks_member hraw hmb, ⟨b, hb, hmb⟩⟩

theorem fuzzy_flatten_idx_nodup (ps : List Party) :
    ((((fuzzyGroupsOf ps).flatten).map (·.idx))).Nodup := by
  have h := groupBlocks_used_perm (smartBlocksOf ps) []
  have hn := groupBlocks_used_nodup (smartBlocksOf ps) [] List.nodup_nil
  rw [List.append_nil] at h
  exact h.nodup hn

theorem exact_flatten_idx_nodup (ps : List Party) :
    ((((exactGroupsOf ps).flatten).map (·.idx))).Nodup := by
  have h := exact_used_perm (processedOf ps)
  have hn := exact_used_nodup (processedOf ps) (nodup_processed_idx ps)
  exact h.nodup hn

theorem allUsed_nodup (ps : List Party) : (allUsedOf ps).Nodup := by
  unfold allUsedOf allGroupsPre
  rw [List.flatten_append, List.map_append]
  refine List.Nodup.append (exact_flatten_idx_nodup ps)
    (fuzzy_flatten_idx_nodup ps) ?_
  intro a ha hain
  rcases List.mem_map.mp ha with ⟨m, hm, hidx⟩
  rcases List.mem_map.mp hain with ⟨m', hm', hidx'⟩
  rcases List.mem_flatten.mp hm with ⟨g, hg, hmg⟩
  rcases List.mem_flatten.mp hm' with ⟨g', hg', hmg'⟩
  have h1 : m.idx ∈ exactUsedOf ps :=
    exact_groups_idx_used (processedOf ps) g hg m hmg
  have h2 := (fuzzy_members ps g' hg' m' hmg').1
  have h3 : m'.idx ∉ exactUsedOf ps := remaining_not_used ps m' h2
  rw [hidx'] at h3
  rw [hidx] at h1
  exact h3 h1

theorem allGroups_members (ps : List Party) :
    ∀ m ∈ (allGroupsPre ps).flatten, m ∈ processedOf ps := by
  intro m hm
  unfold allGroupsPre at hm
  rw [List.flatten_append] at hm
  rcases List.mem_append.mp hm with h | h
  · rcases List.mem_flatten.mp h with ⟨g, hg, hmg⟩
    exact exact_members (processedOf ps) g hg m hmg
  · rcases List.mem_flatten.mp h with ⟨g, hg, hmg⟩
    exact remaining_sub ps m (fuzzy_members ps g hg m hmg).1

theorem flatten_singletons (l : List NParty) :
    ((l.map (fun p => [p])).flatten) = l := by
  induction l with
  | nil => rfl
  | cons p t ih => simp [ih]

theorem groups_flatten_perm (ps : List Party) :
    List.Perm ((resolveGroupsFast ps).flatten) (processedOf ps) := by
  have hAnodup : ((allGroupsPre ps).flatten).Nodup :=
    List.Nodup.of_map _ (allUsed_nodup ps)
  have hproc_nodup : (processedOf ps).Nodup :=
    List.Nodup.of_map _ (nodup_processed_idx ps)
  have hA : List.Perm ((allGroupsPre ps).flatten)
      ((processedOf ps).filter (fun p => decide (p.idx ∈ allUsedOf ps))) := by
    refine (List.perm_ext_iff_of_nodup hAnodup
      (List.Nodup.sublist (List.filter_sublist _) hproc_nodup)).mpr ?_
    intro a
    rw [List.mem_filter]
    constructor
    · intro ha
      refine ⟨allGroups_members ps a ha, ?_⟩
      simp only [decide_eq_true_eq]
      exact List.mem_map_of_mem _ ha
    · rintro ⟨hap, hau⟩
      simp only [decide_eq_true_eq] at hau
      rcases List.mem_map.mp hau with ⟨m, hm, hidx⟩
      have hme : m = a :=
        processed_idx_inj (allGroups_members ps m hm) hap hidx
      exact hme ▸ hm
  have hs : singlesOf ps =
      (processedOf ps).filter (fun p => !decide (p.idx ∈ allUsedOf ps)) := by
    unfold singlesOf
    congr 1
    funext p
    simp [decide_not]
  unfold resolveGroupsFast
  rw [List.flatten_append, flatten_singletons, hs]
  exact (hA.append_right _).trans (List.filter_append_perm _ _)

theorem mkEntities_mem :
    ∀ (gs : List (List NParty)) (n : Nat) (g : List NParty),
      g ∈ gs → ∃ i, mkEntity i g ∈ mkEntities n gs := by
  intro gs
  induction gs with
  | nil => intro n g h; cases h
  | cons g0 t ih =>
    intro n g h
    rcases List.mem_cons.mp h with heq | htail
    · subst heq; exact ⟨n, List.mem_cons_self _ _⟩
    · obtain ⟨i, hi⟩ := ih (n + 1) g htail
      exact ⟨i, List.mem_cons_of_mem _ hi⟩

theorem mkEntities_inv :
    ∀ (gs : List (List NParty)) (n : Nat) (e : Entity),
      e ∈ mkEntities n gs → ∃ i g, g ∈ gs ∧ e = mkEntity i g := by
  intro gs
  induction gs with
  | nil => intro n e h; cases h
  | cons g0 t ih =>
    intro n e h
    rcases List.mem_cons.mp h with heq | htail
    · exact ⟨n, g0, List.mem_cons_self _ _, heq⟩
    · obtain ⟨i, g, hg, he⟩ := ih (n + 1) e htail
      exact ⟨i, g, List.mem_cons_of_mem _ hg, he⟩

theorem mkEntities_map_pids :
    ∀ (gs : List (List NParty)) (n : Nat),
      (mkEntities n gs).map (·.party_ids) =
        gs.map (fun g => g.map (·.raw.party_id)) := by
  intro gs
  induction gs with
  | nil => intro n; rfl
  | cons g0 t ih =>
    intro n
    simp only [mkEntities, List.map_cons]
    exact congrArg _ (ih (n + 1))

end Fast

/-- C3. The emitted entities partition the input: the concatenation of the
entities' member-identifier lists is a permutation of the input identifier
list, so (with the input invariant that identifiers are unique) every input
record identifier appears in exactly one output entity, none dropped, none
duplicated. -/
theorem C3_theorem (ps : List Fast.Party) :
    List.Perm (((Fast.resolveEntitiesFast ps).map (·.party_ids)).flatten)
      (ps.map (·.party_id)) := by
  unfold Fast.resolveEntitiesFast
  rw [Fast.mkEntities_map_pids]
  have h1 : ((Fast.resolveGroupsFast ps).map
      (fun g => g.map (·.raw.party_id))).flatten =
      ((Fast.resolveGroupsFast ps).flatten).map (·.raw.party_id) := by
    rw [List.map_flatten]
  rw [h1]
  have h2 := (Fast.groups_flatten_perm ps).map (·.raw.party_id)
  refine h2.trans ?_
  rw [show Fast.processedOf ps = Fast.preprocessAll 0 ps from rfl,
    Fast.preprocessAll_map_pid]

namespace Fast

theorem exactBoost_ge (s : ℚ) (p q : NParty) : s ≤ exactBoost s p q := by
  unfold exactBoost
  split_ifs <;> linarith

theorem exactBoost_id (s : ℚ) (p q : NParty)
    (h1 : ¬(p.email_n ≠ "" ∧ q.email_n ≠ "" ∧ p.email_n = q.email_n))
    (h2 : ¬(p.phone_n ≠ "" ∧ q.phone_n ≠ "" ∧ p.phone_n = q.phone_n)) :
    exactBoost s p q = s := by
  unfold exactBoost
  rw [if_neg h1, if_neg h2]

theorem nameRatio_nonneg (p q : NParty) :
    0 ≤ fuzzRatio p.name_n q.name_n / 100 :=
  div_nonneg (fuzzRatio_nonneg _ _) (by norm_num)

theorem nameRatio_le_one (p q : NParty) :
    fuzzRatio p.name_n q.name_n / 100 ≤ 1 := by
  have h := fuzzRatio_le_100 p.name_n q.name_n
  linarith

theorem simFast_nonneg (p q : NParty) :
    0 ≤ calculate_similarity_fast p q := by
  unfold calculate_similarity_fast
  by_cases hc : p.name_n ≠ "" ∧ q.name_n ≠ ""
  · rw [if_pos hc]
    have h0 := nameRatio_nonneg p q
    have hm : (0 : ℚ) ≤ fuzzRatio p.name_n q.name_n / 100 * (2/5) := by
      nlinarith
    by_cases h : fuzzRatio p.name_n q.name_n / 100 < 3/10
    · rw [if_pos h]
      exact hm
    · rw [if_neg h]
      have := exactBoost_ge (fuzzRatio p.name_n q.name_n / 100 * (2/5)) p q
      linarith
  · rw [if_neg hc]
    have := exactBoost_ge 0 p q
    linarith

theorem simFast_le (p q : NParty) : calculate_similarity_fast p q ≤ 7/10 := by
  unfold calculate_similarity_fast
  by_cases hc : p.name_n ≠ "" ∧ q.name_n ≠ ""
  · rw [if_pos hc]
    have h0 := nameRatio_nonneg p q
    have h1 := nameRatio_le_one p q
    have hm : fuzzRatio p.name_n q.name_n / 100 * (2/5) ≤ 2/5 := by
      nlinarith
    by_cases h : fuzzRatio p.name_n q.name_n / 100 < 3/10
    · rw [if_pos h]
      linarith
    · rw [if_neg h]
      have := exactBoost_le (fuzzRatio p.name_n q.name_n / 100 * (2/5)) p q
      linarith
  · rw [if_neg hc]
    have := exactBoost_le 0 p q
    linarith

theorem simFast_le_nameOnly (p q : NParty)
    (h1 : ¬(p.email_n ≠ "" ∧ q.email_n ≠ "" ∧ p.email_n = q.email_n))
    (h2 : ¬(p.phone_n ≠ "" ∧ q.phone_n ≠ "" ∧ p.phone_n = q.phone_n)) :
    calculate_similarity_fast p q ≤ 2/5 := by
  unfold calculate_similarity_fast
  by_cases hc : p.name_n ≠ "" ∧ q.name_n ≠ ""
  · rw [if_pos hc]
    have h0 := nameRatio_nonneg p q
    have hle := nameRatio_le_one p q
    have hm : fuzzRatio p.name_n q.name_n / 100 * (2/5) ≤ 2/5 := by
      nlinarith
    by_cases h : fuzzRatio p.name_n q.name_n / 100 < 3/10
    · rw [if_pos h]
      exact hm
    · rw [if_neg h, exactBoost_id _ p q h1 h2]
      exact hm
  · rw [if_neg hc, exactBoost_id 0 p q h1 h2]
    norm_num

theorem survivors_sim_le (ps : List Party) {p q : NParty}
    (hp : p ∈ remainingOf ps) (hq : q ∈ remainingOf ps)
    (hne : p.idx ≠ q.idx) : calculate_similarity_fast p q ≤ 2/5 := by
  have hd := survivors_distinct (processedOf ps) (nodup_processed_idx ps)
    (remaining_sub ps p hp) (remaining_sub ps q hq) hne
    (remaining_not_used ps p hp) (remaining_not_used ps q hq)
  refine simFast_le_nameOnly p q ?_ ?_
  · rintro ⟨he1, -, he3⟩
    exact hd.1 ⟨he1, he3⟩
  · rintro ⟨hh1, -, hh3⟩
    exact hd.2 ⟨hh1, hh3⟩

theorem emailFold_groups_ne_nil :
    ∀ (bs : List (String × List NParty)) (u : List Nat),
      ∀ g ∈ (emailFold bs u).1, g ≠ [] := by
  intro bs
  induction bs with
  | nil => intro u g h; simp [emailFold] at h
  | cons b t ih =>
    intro u g h
    obtain ⟨k0, g0⟩ := b
    match g0 with
    | [] => rw [emailFold] at h; exact ih u g h
    | p :: rest =>
      rw [emailFold] at h
      by_cases hc : rest.length ≠ 0 ∧ p.idx ∉ u
      · rw [if_pos hc] at h
        rcases List.mem_cons.mp h with heq | htail
        · subst heq; exact List.cons_ne_nil _ _
        · exact ih _ g htail
      · rw [if_neg hc] at h
        exact ih u g h

theorem phoneFold_groups_ne_nil :
    ∀ (bs : List (String × List NParty)) (u : List Nat),
      ∀ g ∈ (phoneFold bs u).1, g ≠ [] := by
  intro bs
  induction bs with
  | nil => intro u g h; simp [phoneFold] at h
  | cons b t ih =>
    intro u g h
    obtain ⟨k0, g0⟩ := b
    rw [phoneFold] at h
    by_cases hc : 1 < g0.length
    · rw [if_pos hc] at h
      rcases List.mem_cons.mp h with heq | htail
      · subst heq
        intro he
        rw [he] at hc
        simp at hc
      · exact ih _ g htail
    · rw [if_neg hc] at h
      exact ih u g h

theorem resolveGroups_cases (ps : List Party) {g : List NParty}
    (hg : g ∈ resolveGroupsFast ps) :
    g ∈ exactGroupsOf ps ∨ g ∈ fuzzyGroupsOf ps ∨
      ∃ p ∈ singlesOf ps, g = [p] := by
  unfold resolveGroupsFast allGroupsPre at hg
  rcases List.mem_append.mp hg with h | h
  · rcases List.mem_append.mp h with h1 | h1
    · exact Or.inl h1
    · exact Or.inr (Or.inl h1)
  · rcases List.mem_map.mp h with ⟨p, hp, heq⟩
    exact Or.inr (Or.inr ⟨p, hp, heq.symm⟩)

theorem resolveGroups_ne_nil (ps : List Party) :
    ∀ g ∈ resolveGroupsFast ps, g ≠ [] := by
  intro g hg
  rcases resolveGroups_cases ps hg with h | h | ⟨p, -, heq⟩
  · unfold exactGroupsOf find_exact_matches at h
    rcases List.mem_append.mp h with h1 | h1
    · exact emailFold_groups_ne_nil _ _ g h1
    · exact phoneFold_groups_ne_nil _ _ g h1
  · unfold fuzzyGroupsOf find_entity_groups_blocked at h
    exact groupBlocks_groups_ne_nil _ [] g h
  · subst heq
    exact List.cons_ne_nil _ _

theorem exactGroup_shared_key (ps : List NParty) :
    ∀ g ∈ (find_exact_matches ps).1,
      (∃ e, e ≠ "" ∧ ∀ m ∈ g, m.email_n = e) ∨
      (∃ t, t ≠ "" ∧ ∀ m ∈ g, m.phone_n = t) := by
  intro g hg
  unfold find_exact_matches at hg
  rcases List.mem_append.mp hg with h | h
  · obtain ⟨k, hk⟩ := emailFold_groups_sub _ [] g h
    left
    refine ⟨k, ?_, fun m hm => (gatherBy_member hk hm).2⟩
    obtain ⟨-, hkmem⟩ := mem_gatherBy hk
    rcases List.mem_map.mp hkmem with ⟨m', hm', hkey⟩
    have hne := List.mem_filter.mp hm'
    rw [← hkey]
    simpa using hne.2
  · obtain ⟨k, hk⟩ := phoneFold_groups_sub _ _ g h
    right
    refine ⟨k, ?_, fun m hm => (gatherBy_member hk hm).2⟩
    obtain ⟨-, hkmem⟩ := mem_gatherBy hk
    rcases List.mem_map.mp hkmem with ⟨m', hm', hkey⟩
    have hne := List.mem_filter.mp hm'
    rw [← hkey]
    have h2 := of_decide_eq_true hne.2
    exact h2.1

end Fast

/-- C1. Exact-match absorption fails in both cited resolvers.  Fast
resolver: in `demoAbsorb` records `"b"` and `"c"` share the non-empty
normalized phone `"2"`, but `"b"` was already absorbed into the email
group with `"a"`, so `"c"` is left a singleton and no emitted entity
contains both.  Core resolver: records 1 and 2 of
`[c1recA, c1recB, c1recC]` share the non-empty normalized email
`"e@x"`, yet the anchor scan phone-absorbs record 1 into record 0's
group first and the fuzzy pass (average similarity 3/14 < 0.7) does not
re-join record 2, so the clusters are `[[0, 1], [2]]` — even shared
non-empty emails do not guarantee co-membership there. -/
theorem C1_counterexample :
    ((∃ p ∈ Fast.processedOf Fast.demoAbsorb,
      ∃ q ∈ Fast.processedOf Fast.demoAbsorb,
        p.raw.party_id = "b" ∧ q.raw.party_id = "c" ∧
        p.phone_n ≠ "" ∧ p.phone_n = q.phone_n) ∧
    ¬ ∃ e ∈ Fast.resolveEntitiesFast Fast.demoAbsorb,
        "b" ∈ e.party_ids ∧ "c" ∈ e.party_ids) ∧
    ((([Core.c1recA, Core.c1recB, Core.c1recC].mapM
        Core.preprocess_record).map (fun prs =>
          ((prs.getD 1 default).email_n, (prs.getD 2 default).email_n,
            Core.coreClusters prs))).toOption
      = some (some "e@x", some "e@x", [[0, 1], [2]])) := by
  refine ⟨⟨?_, ?_⟩, ?_⟩
  · decide
  · decide
  · decide

/-- C1 (amended): in the fast resolver, two records sharing a non-empty
normalized email always end up in the same entity, and two records
sharing a non-empty normalized phone end up in the same entity provided
neither was already placed into an email exact-match group; in the core
resolver not even a shared non-empty email guarantees co-membership,
since a record can first be absorbed into an earlier anchor's group on
its phone. -/
theorem C1_theorem (ps : List Fast.Party) (p q : Fast.NParty)
    (hp : p ∈ Fast.processedOf ps) (hq : q ∈ Fast.processedOf ps)
    (hne : p.idx ≠ q.idx)
    (hkey : (p.email_n ≠ "" ∧ p.email_n = q.email_n) ∨
      (p.phone_n ≠ "" ∧ p.phone_n = q.phone_n ∧
        p.idx ∉ Fast.emailUsedOf ps ∧ q.idx ∉ Fast.emailUsedOf ps)) :
    ∃ g ∈ Fast.resolveGroupsFast ps, p ∈ g ∧ q ∈ g ∧
      ∃ e ∈ Fast.resolveEntitiesFast ps,
        p.raw.party_id ∈ e.party_ids ∧ q.raw.party_id ∈ e.party_ids := by
  have hex : ∃ g ∈ Fast.exactGroupsOf ps, p ∈ g ∧ q ∈ g := by
    rcases hkey with ⟨he, heq⟩ | ⟨hph, heq, hpu, hqu⟩
    · exact Fast.email_absorb (Fast.processedOf ps)
        (Fast.nodup_processed_idx ps) hp hq hne he heq
    · exact Fast.phone_absorb (Fast.processedOf ps)
        (Fast.nodup_processed_idx ps) hp hq hne hph heq hpu hqu
  obtain ⟨g, hg, hpg, hqg⟩ := hex
  have hgr : g ∈ Fast.resolveGroupsFast ps := by
    unfold Fast.resolveGroupsFast Fast.allGroupsPre
    exact List.mem_append.mpr (Or.inl (List.mem_append.mpr (Or.inl hg)))
  obtain ⟨i, hie⟩ := Fast.mkEntities_mem (Fast.resolveGroupsFast ps) 0 g hgr
  refine ⟨g, hgr, hpg, hqg, Fast.mkEntity i g, hie, ?_, ?_⟩
  · exact List.mem_map_of_mem _ hpg
  · exact List.mem_map_of_mem _ hqg

theorem C1_witness :
    ((Fast.processedOf Fast.demoAbsorb).getD 0 default)
        ∈ Fast.processedOf Fast.demoAbsorb ∧
    ((Fast.processedOf Fast.demoAbsorb).getD 1 default)
        ∈ Fast.processedOf Fast.demoAbsorb ∧
    ((Fast.processedOf Fast.demoAbsorb).getD 0 default).idx ≠
      ((Fast.processedOf Fast.demoAbsorb).getD 1 default).idx ∧
    (((Fast.processedOf Fast.demoAbsorb).getD 0 default).email_n ≠ "" ∧
      ((Fast.processedOf Fast.demoAbsorb).getD 0 default).email_n =
        ((Fast.processedOf Fast.demoAbsorb).getD 1 default).email_n) ∧
    ∃ g ∈ Fast.resolveGroupsFast Fast.demoAbsorb,
      ((Fast.processedOf Fast.demoAbsorb).getD 0 default) ∈ g ∧
      ((Fast.processedOf Fast.demoAbsorb).getD 1 default) ∈ g ∧
      ∃ e ∈ Fast.resolveEntitiesFast Fast.demoAbsorb,
        ((Fast.processedOf Fast.demoAbsorb).getD 0 default).raw.party_id
          ∈ e.party_ids ∧
        ((Fast.processedOf Fast.demoAbsorb).getD 1 default).raw.party_id
          ∈ e.party_ids :=
  ⟨by decide, by decide, by decide, by decide,
   C1_theorem Fast.demoAbsorb _ _ (by decide) (by decide) (by decide)
     (Or.inl (by decide))⟩

/-- C7. Every block kept by `create_smart_blocks` has at most 1000 members
(so every over-cap block is dropped entirely), and a residual record that
appears in no kept block is never placed in a fuzzy group: it is emitted as
a singleton entity. -/
theorem C7_theorem (ps : List Fast.Party) :
    (∀ kb ∈ Fast.smartBlocksOf ps,
      kb.2.length ≤ 1000 ∧ kb ∈ Fast.rawBlocks (Fast.remainingOf ps)) ∧
    ∀ p ∈ Fast.remainingOf ps,
      (∀ kb ∈ Fast.smartBlocksOf ps, p ∉ kb.2) →
      [p] ∈ Fast.resolveGroupsFast ps ∧
      ∃ e ∈ Fast.resolveEntitiesFast ps, e.party_ids = [p.raw.party_id] := by
  constructor
  · intro kb h
    exact ⟨Fast.smartBlocks_size _ kb h, Fast.smartBlocks_sub _ kb h⟩
  · intro p hp hblocks
    have hnotused : p.idx ∉ Fast.allUsedOf ps := by
      intro hmem
      unfold Fast.allUsedOf at hmem
      rcases List.mem_map.mp hmem with ⟨m, hm, hidx⟩
      have hmp : m ∈ Fast.processedOf ps := Fast.allGroups_members ps m hm
      have hme : m = p :=
        Fast.processed_idx_inj hmp (Fast.remaining_sub ps p hp) hidx
      subst hme
      unfold Fast.allGroupsPre at hm
      rw [List.flatten_append] at hm
      rcases List.mem_append.mp hm with h | h
      · rcases List.mem_flatten.mp h with ⟨g, hg, hmg⟩
        exact Fast.remaining_not_used ps m hp
          (Fast.exact_groups_idx_used (Fast.processedOf ps) g hg _ hmg)
      · rcases List.mem_flatten.mp h with ⟨g, hg, hmg⟩
        obtain ⟨-, kb, hkb, hmkb⟩ := Fast.fuzzy_members ps g hg _ hmg
        exact hblocks kb hkb hmkb
    have hsingle : p ∈ Fast.singlesOf ps := by
      unfold Fast.singlesOf
      exact List.mem_filter.mpr
        ⟨Fast.remaining_sub ps p hp, by simpa using hnotused⟩
    have hgroups : [p] ∈ Fast.resolveGroupsFast ps := by
      unfold Fast.resolveGroupsFast
      exact List.mem_append.mpr (Or.inr (List.mem_map.mpr ⟨p, hsingle, rfl⟩))
    refine ⟨hgroups, ?_⟩
    obtain ⟨i, hie⟩ := Fast.mkEntities_mem _ 0 [p] hgroups
    exact ⟨Fast.mkEntity i [p], hie, rfl⟩

theorem C7_witness :
    (Fast.preprocess_party 0 Fast.emptyParty)
        ∈ Fast.remainingOf [Fast.emptyParty] ∧
    (∀ kb ∈ Fast.smartBlocksOf [Fast.emptyParty],
      (Fast.preprocess_party 0 Fast.emptyParty) ∉ kb.2) ∧
    ([Fast.preprocess_party 0 Fast.emptyParty]
        ∈ Fast.resolveGroupsFast [Fast.emptyParty] ∧
      ∃ e ∈ Fast.resolveEntitiesFast [Fast.emptyParty],
        e.party_ids = [(Fast.preprocess_party 0 Fast.emptyParty).raw.party_id]) :=
  ⟨by decide, by decide,
   (C7_theorem [Fast.emptyParty]).2 (Fast.preprocess_party 0 Fast.emptyParty)
     (by decide) (by decide)⟩

/-- C10. Among the records that survive the exact-match stage no two share
a non-empty normalized email or phone, so `calculate_similarity_fast`
scores any distinct pair at most 0.4 < 0.7; every fuzzy group is therefore
a singleton, and every emitted cluster with two or more members is an
exact-match group whose members all share one non-empty normalized email
or one non-empty normalized phone. -/
theorem C10_theorem (ps : List Fast.Party) :
    (∀ p ∈ Fast.remainingOf ps, ∀ q ∈ Fast.remainingOf ps, p.idx ≠ q.idx →
      Fast.calculate_similarity_fast p q ≤ 2/5) ∧
    (∀ g ∈ Fast.fuzzyGroupsOf ps, g.length = 1) ∧
    (∀ g ∈ Fast.resolveGroupsFast ps, 2 ≤ g.length →
      g ∈ Fast.exactGroupsOf ps ∧
      ((∃ e, e ≠ "" ∧ ∀ m ∈ g, m.email_n = e) ∨
       (∃ t, t ≠ "" ∧ ∀ m ∈ g, m.phone_n = t))) := by
  have hpair : ∀ p ∈ Fast.remainingOf ps, ∀ q ∈ Fast.remainingOf ps,
      p.idx ≠ q.idx → Fast.calculate_similarity_fast p q ≤ 2/5 :=
    fun p hp q hq hne => Fast.survivors_sim_le ps hp hq hne
  have hfuzzy : ∀ g ∈ Fast.fuzzyGroupsOf ps, g.length = 1 := by
    intro g hg
    unfold Fast.fuzzyGroupsOf Fast.find_entity_groups_blocked at hg
    refine Fast.groupBlocks_singletons _ [] ?_ g hg
    intro b hb p hpb q hqb hne
    have hraw : (b.1, b.2) ∈ Fast.rawBlocks (Fast.remainingOf ps) :=
      Fast.smartBlocks_sub _ b hb
    have hp := Fast.rawBlocks_member hraw hpb
    have hq := Fast.rawBlocks_member hraw hqb
    have hle := Fast.survivors_sim_le ps hp hq hne
    linarith
  refine ⟨hpair, hfuzzy, ?_⟩
  intro g hg hlen
  rcases Fast.resolveGroups_cases ps hg with h | h | ⟨p, -, heq⟩
  · exact ⟨h, Fast.exactGroup_shared_key (Fast.processedOf ps) g h⟩
  · have := hfuzzy g h
    omega
  · subst heq
    simp at hlen

theorem C10_witness :
    ((Fast.processedOf Fast.demoSurvivors).getD 0 default)
        ∈ Fast.remainingOf Fast.demoSurvivors ∧
    ((Fast.processedOf Fast.demoSurvivors).getD 1 default)
        ∈ Fast.remainingOf Fast.demoSurvivors ∧
    ((Fast.processedOf Fast.demoSurvivors).getD 0 default).idx ≠
      ((Fast.processedOf Fast.demoSurvivors).getD 1 default).idx ∧
    Fast.calculate_similarity_fast
      ((Fast.processedOf Fast.demoSurvivors).getD 0 default)
      ((Fast.processedOf Fast.demoSurvivors).getD 1 default) ≤ 2/5 :=
  ⟨by decide, by decide, by decide,
   (C10_theorem Fast.demoSurvivors).1 _ (by decide) _ (by decide) (by decide)⟩

namespace Fast

theorem pairSims_bounds (g : List NParty) :
    ∀ x ∈ pairSims g, 0 ≤ x ∧ x ≤ 7/10 := by
  induction g with
  | nil => intro x h; simp [pairSims] at h
  | cons p t ih =>
    intro x h
    rw [pairSims] at h
    rcases List.mem_append.mp h with h1 | h1
    · rcases List.mem_map.mp h1 with ⟨q, -, heq⟩
      subst heq
      exact ⟨simFast_nonneg p q, simFast_le p q⟩
    · exact ih x h1

theorem meanQ_bounds (l : List ℚ) (hne : l ≠ [])
    (hb : ∀ x ∈ l, 0 ≤ x ∧ x ≤ 7/10) : 0 ≤ meanQ l ∧ meanQ l ≤ 7/10 := by
  unfold meanQ
  have hlen : (0 : ℚ) < (l.length : ℚ) := by
    have : 0 < l.length := List.length_pos.mpr hne
    exact_mod_cast this
  constructor
  · exact div_nonneg (List.sum_nonneg (fun x hx => (hb x hx).1)) (le_of_lt hlen)
  · rw [div_le_iff₀ hlen]
    have hs := List.sum_le_card_nsmul l (7/10) (fun x hx => (hb x hx).2)
    rw [nsmul_eq_mul] at hs
    linarith

theorem pairSims_ne_nil {g : List NParty} (h : 2 ≤ g.length) :
    pairSims g ≠ [] := by
  match g, h with
  | a :: b :: t, _ => simp [pairSims]

theorem conf_eq_spec (g : List NParty) (hne : g ≠ []) :
    calculate_confidence g = specConfidence g := by
  unfold calculate_confidence specConfidence
  by_cases h1 : g.length = 1
  · rw [if_pos h1, if_pos h1]
  · rw [if_neg h1, if_neg h1]
    have hlen2 : 2 ≤ g.length := by
      have : 0 < g.length := List.length_pos.mpr hne
      omega
    rw [if_pos (pairSims_ne_nil hlen2)]

theorem specConfidence_bounds (g : List NParty) (hne : g ≠ []) :
    0 ≤ specConfidence g ∧ specConfidence g ≤ 1 := by
  unfold specConfidence
  by_cases h1 : g.length = 1
  · rw [if_pos h1]
    norm_num
  · rw [if_neg h1]
    have hlen2 : 2 ≤ g.length := by
      have : 0 < g.length := List.length_pos.mpr hne
      omega
    have hb := meanQ_bounds (pairSims g) (pairSims_ne_nil hlen2)
      (pairSims_bounds g)
    have hboost : (0 : ℚ) ≤ min ((g.length : ℚ) * (1/20)) (1/5) := by
      refine le_min ?_ (by norm_num)
      positivity
    constructor
    · refine le_min ?_ (by norm_num)
      linarith
    · exact min_le_right _ _

end Fast

/-- C5. Every emitted entity's confidence follows the claimed formula:
0.7 for a singleton cluster, otherwise the mean pairwise record-level
similarity over all unordered member pairs plus `min(0.05·n, 0.2)` clamped
to 1.0; in all cases it lies in `[0, 1]`. -/
theorem C5_theorem (ps : List Fast.Party) :
    ∀ e ∈ Fast.resolveEntitiesFast ps,
      (0 ≤ e.confidence_score ∧ e.confidence_score ≤ 1) ∧
      (e.party_ids.length = 1 → e.confidence_score = 7/10) ∧
      ∃ g ∈ Fast.resolveGroupsFast ps,
        e.party_ids = g.map (·.raw.party_id) ∧
        e.confidence_score = Fast.specConfidence g := by
  intro e he
  unfold Fast.resolveEntitiesFast at he
  obtain ⟨i, g, hg, rfl⟩ := Fast.mkEntities_inv _ 0 e he
  have hne := Fast.resolveGroups_ne_nil ps g hg
  have hconf : (Fast.mkEntity i g).confidence_score =
      Fast.calculate_confidence g := rfl
  have heq := Fast.conf_eq_spec g hne
  have hb := Fast.specConfidence_bounds g hne
  refine ⟨⟨?_, ?_⟩, ?_, g, hg, rfl, ?_⟩
  · rw [hconf, heq]; exact hb.1
  · rw [hconf, heq]; exact hb.2
  · intro hlen
    have hg1 : g.length = 1 := by
      have : (Fast.mkEntity i g).party_ids.length = g.length :=
        List.length_map _ _
      omega
    rw [hconf, heq]
    unfold Fast.specConfidence
    rw [if_pos hg1]
  · rw [hconf, heq]

theorem C5_witness :
    (Fast.mkEntity 0 [Fast.preprocess_party 0 Fast.emptyParty])
        ∈ Fast.resolveEntitiesFast [Fast.emptyParty] ∧
    (0 ≤ (Fast.mkEntity 0 [Fast.preprocess_party 0 Fast.emptyParty]).confidence_score ∧
      (Fast.mkEntity 0 [Fast.preprocess_party 0 Fast.emptyParty]).confidence_score ≤ 1) ∧
    ((Fast.mkEntity 0 [Fast.preprocess_party 0 Fast.emptyParty]).party_ids.length = 1 →
      (Fast.mkEntity 0 [Fast.preprocess_party 0 Fast.emptyParty]).confidence_score = 7/10) ∧
    ∃ g ∈ Fast.resolveGroupsFast [Fast.emptyParty],
      (Fast.mkEntity 0 [Fast.preprocess_party 0 Fast.emptyParty]).party_ids =
        g.map (·.raw.party_id) ∧
      (Fast.mkEntity 0 [Fast.preprocess_party 0 Fast.emptyParty]).confidence_score =
        Fast.specConfidence g :=
  ⟨by decide, C5_theorem [Fast.emptyParty] _ (by decide)⟩

end

end ERX
